import Mathlib

/-!
Verification development for the axiomander program-contract verifier.

We shallowly embed the parts of the code base that the checked claims are
about: the Python AST fragment the pipeline manipulates, the weakest
precondition calculator (logic/weakest_precondition.py), the purity
analyzer (ast/purity_analyzer.py), the SMT translator state machine
(logic/smt_translator.py) and the verification orchestrator
(verification/orchestrator.py).  External collaborators (the Z3 solver,
the Python parser) are modelled abstractly: the solver is a stack of
assertion frames plus an oracle for satisfiability answers.
-/

namespace Axiomander

/-- Literal constants occurring in `ast.Constant` nodes. -/
inductive Lit where
  | intL (n : Int)
  | boolL (b : Bool)
  | strL (s : String)
  | noneL
deriving DecidableEq, Repr

/-- Expression context of a `Name` node (`ast.Load` / `ast.Store`). -/
inductive Ctx where
  | load
  | store
deriving DecidableEq, Repr

/-- Unary operators (`ast.Not`, `ast.USub`, `ast.UAdd`). -/
inductive UnaryOperator where
  | uNot
  | uSub
  | uAdd
deriving DecidableEq, Repr

/-- Boolean operators (`ast.And`, `ast.Or`). -/
inductive BoolOperator where
  | bAnd
  | bOr
deriving DecidableEq, Repr

/-- Binary arithmetic operators. -/
inductive BinOperator where
  | addOp
  | subOp
  | multOp
  | divOp
  | modOp
  | powOp
deriving DecidableEq, Repr

/-- Comparison operators, including identity and membership tests. -/
inductive CmpOp where
  | eqOp
  | notEqOp
  | ltOp
  | ltEOp
  | gtOp
  | gtEOp
  | isOp
  | isNotOp
  | inOp
  | notInOp
deriving DecidableEq, Repr

/-- The expression fragment of the Python AST handled by the pipeline.
Lambda parameters are identifier strings (as in `ast.arg`), and the
default-value expressions of a lambda are part of the node
(`ast.arguments.defaults`).  `unknownExpr` stands for any expression kind
outside this fragment (for example an f-string), which the analyzers treat
through their fall-through branches. -/
inductive Expr where
  | constant (v : Lit)
  | name (id : String) (ctx : Ctx)
  | attribute (value : Expr) (attr : String)
  | binOp (left : Expr) (op : BinOperator) (right : Expr)
  | unaryOp (op : UnaryOperator) (operand : Expr)
  | boolOp (op : BoolOperator) (values : List Expr)
  | compare (left : Expr) (ops : List CmpOp) (comparators : List Expr)
  | call (func : Expr) (args : List Expr) (keywords : List Expr)
  | ifExp (test : Expr) (body : Expr) (orelse : Expr)
  | subscript (value : Expr) (index : Expr)
  | listLit (elts : List Expr)
  | tupleLit (elts : List Expr)
  | setLit (elts : List Expr)
  | lambda (params : List String) (defaults : List Expr) (body : Expr)
  | unknownExpr (kind : String)

/-- The statement fragment of the Python AST handled by the pipeline.
Assignment targets are expressions, as in `ast.Assign.targets`.
`unknownStmt` stands for statement kinds outside the fragment. -/
inductive Stmt where
  | assign (targets : List Expr) (value : Expr)
  | augAssign (target : Expr) (op : BinOperator) (value : Expr)
  | exprStmt (value : Expr)
  | passStmt
  | assertStmt (test : Expr) (msg : Option Expr)
  | ifStmt (test : Expr) (body : List Stmt) (orelse : List Stmt)
  | returnStmt (value : Option Expr)
  | forStmt (body : List Stmt)
  | whileStmt (body : List Stmt)
  | tryStmt
  | withStmt
  | functionDefStmt (fname : String)
  | asyncFunctionDefStmt (fname : String)
  | classDefStmt (cname : String)
  | importStmt
  | importFromStmt
  | unknownStmt (kind : String)

/-- Python runtime class name of a statement node (`type(statement).__name__`),
used in diagnostic strings. -/
def stmtKindName : Stmt → String
  | .assign _ _ => "Assign"
  | .augAssign _ _ _ => "AugAssign"
  | .exprStmt _ => "Expr"
  | .passStmt => "Pass"
  | .assertStmt _ _ => "Assert"
  | .ifStmt _ _ _ => "If"
  | .returnStmt _ => "Return"
  | .forStmt _ => "For"
  | .whileStmt _ => "While"
  | .tryStmt => "Try"
  | .withStmt => "With"
  | .functionDefStmt _ => "FunctionDef"
  | .asyncFunctionDefStmt _ => "AsyncFunctionDef"
  | .classDefStmt _ => "ClassDef"
  | .importStmt => "Import"
  | .importFromStmt => "ImportFrom"
  | .unknownStmt k => k

/-- Substitution as implemented by `WeakestPreconditionCalculator._substitute_variable`:
an `ast.NodeTransformer` whose `visit_Name` replaces every `Name` node in
`Load` context whose identifier matches, by a (deep copy of) the
replacement.  The transformer recurses into every child node, including
lambda bodies, so bound occurrences are replaced as well. -/
def substCode (x : String) (repl : Expr) : Expr → Expr
  | .constant v => .constant v
  | .name id ctx => if ctx = Ctx.load ∧ id = x then repl else .name id ctx
  | .attribute value attr => .attribute (substCode x repl value) attr
  | .binOp l op r => .binOp (substCode x repl l) op (substCode x repl r)
  | .unaryOp op operand => .unaryOp op (substCode x repl operand)
  | .boolOp op values => .boolOp op (values.attach.map fun vh => substCode x repl vh.1)
  | .compare l ops comps =>
      .compare (substCode x repl l) ops (comps.attach.map fun vh => substCode x repl vh.1)
  | .call f args kws =>
      .call (substCode x repl f) (args.attach.map fun vh => substCode x repl vh.1)
        (kws.attach.map fun vh => substCode x repl vh.1)
  | .ifExp t b o => .ifExp (substCode x repl t) (substCode x repl b) (substCode x repl o)
  | .subscript v i => .subscript (substCode x repl v) (substCode x repl i)
  | .listLit elts => .listLit (elts.attach.map fun vh => substCode x repl vh.1)
  | .tupleLit elts => .tupleLit (elts.attach.map fun vh => substCode x repl vh.1)
  | .setLit elts => .setLit (elts.attach.map fun vh => substCode x repl vh.1)
  | .lambda ps ds b =>
      .lambda ps (ds.attach.map fun vh => substCode x repl vh.1) (substCode x repl b)
  | .unknownExpr k => .unknownExpr k
termination_by e => sizeOf e
decreasing_by
  all_goals simp_wf
  all_goals first
    | omega
    | (have h := List.sizeOf_lt_of_mem vh.2; omega)

/-- Modelled from the spec: substitution of every free occurrence of a name.
Identical to `substCode` except that a lambda binds its parameters, so a
body occurrence of a name listed among the lambda parameters is not free
and is left unchanged. -/
def substFree (x : String) (repl : Expr) : Expr → Expr
  | .constant v => .constant v
  | .name id ctx => if ctx = Ctx.load ∧ id = x then repl else .name id ctx
  | .attribute value attr => .attribute (substFree x repl value) attr
  | .binOp l op r => .binOp (substFree x repl l) op (substFree x repl r)
  | .unaryOp op operand => .unaryOp op (substFree x repl operand)
  | .boolOp op values => .boolOp op (values.attach.map fun vh => substFree x repl vh.1)
  | .compare l ops comps =>
      .compare (substFree x repl l) ops (comps.attach.map fun vh => substFree x repl vh.1)
  | .call f args kws =>
      .call (substFree x repl f) (args.attach.map fun vh => substFree x repl vh.1)
        (kws.attach.map fun vh => substFree x repl vh.1)
  | .ifExp t b o => .ifExp (substFree x repl t) (substFree x repl b) (substFree x repl o)
  | .subscript v i => .subscript (substFree x repl v) (substFree x repl i)
  | .listLit elts => .listLit (elts.attach.map fun vh => substFree x repl vh.1)
  | .tupleLit elts => .tupleLit (elts.attach.map fun vh => substFree x repl vh.1)
  | .setLit elts => .setLit (elts.attach.map fun vh => substFree x repl vh.1)
  | .lambda ps ds b =>
      .lambda ps (ds.attach.map fun vh => substFree x repl vh.1)
        (if x ∈ ps then b else substFree x repl b)
  | .unknownExpr k => .unknownExpr k
termination_by e => sizeOf e
decreasing_by
  all_goals simp_wf
  all_goals first
    | omega
    | (have h := List.sizeOf_lt_of_mem vh.2; omega)

/-! ## Weakest precondition calculator (logic/weakest_precondition.py) -/

/-- Outcomes of backward propagation (`PropagationResult`). -/
inductive PropagationResult where
  | success
  | blocked
  | impossible
  | error
deriving DecidableEq, Repr

/-- One entry of `self.calculation_steps`.  The main loop appends
`(stmt, condition)` pairs; `_propagate_through_if_statement` appends a
formatted string, which we keep as the structured data the format string
is built from. -/
inductive Step where
  | pair (stmt : Stmt) (cond : Expr)
  | ifInfo (test p1 p2 : Expr)

/-- Result record of a WP calculation (`WPResult`).  In the embedded pure
fragment no exception can be raised, so the condition is always present
and the `ERROR` outcome is never produced. -/
structure WPRes where
  result : PropagationResult
  condition : Expr
  location : Option Nat
  reason : String
  steps : List Step

/-- Negation builder `_create_negation`. -/
def createNegation (e : Expr) : Expr := .unaryOp .uNot e

/-- Implication builder `_create_implication`: an implication is encoded as
(not antecedent) or consequent. -/
def createImplication (antecedent consequent : Expr) : Expr :=
  .boolOp .bOr [createNegation antecedent, consequent]

/-- Conjunction builder `_create_conjunction`. -/
def createConjunction (l r : Expr) : Expr := .boolOp .bAnd [l, r]

mutual
/-- Size of a statement, counting nested statement lists; used as the
termination measure of the mutually recursive WP functions. -/
def stmtSz : Stmt → Nat
  | .ifStmt _ b e => 1 + stmtListSz b + stmtListSz e
  | .forStmt b => 1 + stmtListSz b
  | .whileStmt b => 1 + stmtListSz b
  | _ => 1

/-- Size of a statement list. -/
def stmtListSz : List Stmt → Nat
  | [] => 0
  | s :: r => 1 + stmtSz s + stmtListSz r
end

theorem stmtListSz_append (l1 l2 : List Stmt) :
    stmtListSz (l1 ++ l2) = stmtListSz l1 + stmtListSz l2 := by
  induction l1 with
  | nil => simp [stmtListSz]
  | cons s r ih => simp [stmtListSz, ih]; omega

theorem stmtListSz_reverse (l : List Stmt) : stmtListSz l.reverse = stmtListSz l := by
  induction l with
  | nil => rfl
  | cons s r ih =>
      simp [List.reverse_cons, stmtListSz_append, stmtListSz, ih]; omega

/-- `_propagate_through_assignment`: only single-target assignments to a
plain name are supported; those substitute the target name by the
right-hand side in the condition.  Substitution is total in the embedding,
so the error branch of the Python method is unreachable. -/
def propagateThroughAssignment (cond : Expr) (targets : List Expr) (value : Expr)
    (location : Option Nat) : WPRes :=
  match targets with
  | [Expr.name varName _] =>
      { result := .success, condition := substCode varName value cond,
        location := location,
        reason := "Substituted " ++ varName ++ " with assigned expression",
        steps := [] }
  | [_] =>
      { result := .blocked, condition := cond, location := location,
        reason := "Complex assignment targets not supported", steps := [] }
  | _ =>
      { result := .blocked, condition := cond, location := location,
        reason := "Multiple assignment targets not supported", steps := [] }

/-- `_propagate_through_expression_stmt`: constant-literal expression
statements pass through, anything else blocks. -/
def propagateThroughExpressionStmt (cond : Expr) (value : Expr)
    (location : Option Nat) : WPRes :=
  match value with
  | .constant _ =>
      { result := .success, condition := cond, location := location,
        reason := "Pure literal expression has no effect", steps := [] }
  | _ =>
      { result := .blocked, condition := cond, location := location,
        reason := "Expression statement may have side effects", steps := [] }

/-- `_propagate_through_assertion`: strengthen the condition with the
preceding assertion. -/
def propagateThroughAssertion (cond : Expr) (test : Expr)
    (location : Option Nat) : WPRes :=
  { result := .success, condition := .boolOp .bAnd [test, cond],
    location := location,
    reason := "Combined with preceding assertion", steps := [] }

/-- `_propagate_through_aug_assignment` for a name target: desugar
`x op= v` to `x = x op v` and apply the assignment rule. -/
def propagateThroughAugAssignmentName (sm : Stmt → Option Nat) (st : Stmt) (cond : Expr)
    (varName : String) (op : BinOperator) (value : Expr) (steps : List Step) :
    WPRes × List Step :=
  (propagateThroughAssignment cond [Expr.name varName .store]
    (Expr.binOp (Expr.name varName .load) op value) (sm st), steps)

/-- Final part of `_propagate_through_if_statement`: build the combined
condition, record the calculation step, and return success. -/
def finishIfStatement (test p1 p2 : Expr) (location : Option Nat)
    (steps : List Step) : WPRes × List Step :=
  let combined := createConjunction (createImplication test p1)
    (createImplication (createNegation test) p2)
  let steps2 := steps ++ [Step.ifInfo test p1 p2]
  ({ result := .success, condition := combined, location := location,
     reason := "Successfully calculated WP for if statement", steps := steps2 }, steps2)

mutual
/-- `_propagate_through_statement`: dispatch over statement kinds.  The
second component of the result is `self.calculation_steps` after the call
(mutated only by if-statement handling). -/
def propagateThroughStatement (sm : Stmt → Option Nat) (cond : Expr) (st : Stmt)
    (steps : List Step) : WPRes × List Step :=
  match st with
  | .assign targets value => (propagateThroughAssignment cond targets value (sm st), steps)
  | .augAssign target op value =>
      match target with
      | .name varName _ =>
          propagateThroughAugAssignmentName sm st cond varName op value steps
      | _ =>
          ({ result := .blocked, condition := cond, location := sm st,
             reason := "Complex augmented assignment targets not supported",
             steps := [] }, steps)
  | .exprStmt value => (propagateThroughExpressionStmt cond value (sm st), steps)
  | .passStmt =>
      ({ result := .success, condition := cond, location := sm st,
         reason := "Pass statement has no effect", steps := [] }, steps)
  | .assertStmt test _ => (propagateThroughAssertion cond test (sm st), steps)
  | .ifStmt test body orelse =>
      propagateThroughIfStatement sm cond test body orelse (sm st) steps
  | other =>
      ({ result := .blocked, condition := cond, location := sm other,
         reason := "Impure statement type: " ++ stmtKindName other, steps := [] }, steps)
termination_by 2 * stmtSz st
decreasing_by
  all_goals simp_wf
  all_goals simp [stmtSz, stmtListSz, stmtListSz_reverse]
  all_goals omega

/-- `_propagate_through_if_statement`: compute the WP of both branches and
combine them as (test implies P1) and (not test implies P2), each
implication built by `_create_implication`. -/
def propagateThroughIfStatement (sm : Stmt → Option Nat) (cond : Expr) (test : Expr)
    (body orelse : List Stmt) (location : Option Nat) (steps : List Step) :
    WPRes × List Step :=
  match calcWpGo sm body.reverse cond none steps with
  | (r1, steps1) =>
    if r1.result = .success then
      let p1 := r1.condition
      if orelse.isEmpty then
        finishIfStatement test p1 cond location steps1
      else
        match calcWpGo sm orelse.reverse cond none steps1 with
        | (r2, steps2) =>
          if r2.result = .success then
            finishIfStatement test p1 r2.condition location steps2
          else
            ({ result := r2.result, condition := cond, location := location,
               reason := "Failed to calculate WP for else branch: " ++ r2.reason,
               steps := steps2 }, steps2)
    else
      ({ result := r1.result, condition := cond, location := location,
         reason := "Failed to calculate WP for if branch: " ++ r1.reason,
         steps := steps1 }, steps1)
termination_by 1 + 2 * stmtListSz body + 2 * stmtListSz orelse
decreasing_by
  all_goals simp_wf
  all_goals simp [stmtListSz_reverse]
  all_goals omega

/-- `_calculate_wp_for_statements`: fold backward propagation over a
statement list in reverse source order.  We pass the list already
reversed, so the head is the last statement of the block. -/
def calcWpGo (sm : Stmt → Option Nat) (stmts : List Stmt) (cond : Expr)
    (curLoc : Option Nat) (steps : List Step) : WPRes × List Step :=
  match stmts with
  | [] =>
      ({ result := .success, condition := cond, location := curLoc,
         reason := "Successfully processed statement list", steps := [] }, steps)
  | s :: rest =>
      match propagateThroughStatement sm cond s steps with
      | (r, steps1) =>
        if r.result = .success then
          calcWpGo sm rest r.condition r.location steps1
        else
          (r, steps1)
termination_by 2 * stmtListSz stmts
decreasing_by
  all_goals simp_wf
  all_goals simp [stmtListSz]
  all_goals omega
end

/-- Main loop of `calculate_weakest_precondition`: walk the preceding
statements backward (the argument list is already reversed), carrying the
current condition, location and `self.calculation_steps`.  At the top of
each iteration the step budget is checked. -/
def wpLoop (sm : Stmt → Option Nat) (maxSteps : Nat) :
    List Stmt → Expr → Option Nat → List Step → WPRes
  | [], cond, loc, steps =>
      { result := .success, condition := cond, location := loc,
        reason := "Successfully calculated weakest precondition", steps := steps }
  | stmt :: rest, cond, loc, steps =>
      if maxSteps ≤ steps.length then
        { result := .blocked, condition := cond, location := sm stmt,
          reason := "Maximum steps (" ++ toString maxSteps ++ ") reached",
          steps := steps }
      else
        match propagateThroughStatement sm cond stmt steps with
        | (r, steps1) =>
          match r.result with
          | .success =>
              wpLoop sm maxSteps rest r.condition r.location
                (steps1 ++ [Step.pair stmt r.condition])
          | .blocked =>
              { result := .blocked, condition := cond,
                location := match r.location with
                  | some l => some l
                  | none => sm stmt,
                reason := "Blocked by impure statement: " ++ r.reason,
                steps := steps1 }
          | _ => r

/-- `calculate_weakest_precondition`: reset the per-invocation state, check
that the assertion lives in a function, then run the backward walk over
the statements preceding the assertion with the given step budget.  The
containing function and the preceding statements are supplied by the AST
traverser, which we abstract as arguments. -/
def calculateWeakestPrecondition (sm : Stmt → Option Nat) (hasContainingFunction : Bool)
    (preceding : List Stmt) (assertionTest : Expr) (assertionLoc : Option Nat)
    (maxSteps : Nat) : WPRes :=
  if hasContainingFunction then
    wpLoop sm maxSteps preceding.reverse assertionTest assertionLoc []
  else
    { result := .blocked, condition := assertionTest, location := assertionLoc,
      reason := "Assertion not contained in a function", steps := [] }

/-- `calculate_weakest_precondition` with its default step budget of 50. -/
def calculateWeakestPreconditionDefault (sm : Stmt → Option Nat)
    (hasContainingFunction : Bool) (preceding : List Stmt) (assertionTest : Expr)
    (assertionLoc : Option Nat) : WPRes :=
  calculateWeakestPrecondition sm hasContainingFunction preceding assertionTest
    assertionLoc 50

/-- Boolean valuation semantics for the logical fragment of expressions:
conjunction, disjunction and negation are interpreted over `Bool`, and
every other expression is treated as an atom valued by `atom`.  Used to
compare computed conditions up to logical equivalence. -/
def beval (atom : Expr → Bool) : Expr → Bool
  | .boolOp .bAnd values => values.attach.all fun vh => beval atom vh.1
  | .boolOp .bOr values => values.attach.any fun vh => beval atom vh.1
  | .unaryOp .uNot e => !(beval atom e)
  | e => atom e
termination_by e => sizeOf e
decreasing_by
  all_goals simp_wf
  all_goals first
    | omega
    | (have h := List.sizeOf_lt_of_mem vh.2; omega)

/-! ## Purity analyzer (ast/purity_analyzer.py) -/

/-- Purity classification levels (`PurityLevel`). -/
inductive PurityLevel where
  | pure
  | impure
  | unknown
deriving DecidableEq, Repr

/-- Result of purity analysis (`PurityResult`); the source also carries a
location and optional details, which no consumer inspects. -/
structure PurityResult where
  level : PurityLevel
  reason : String

/-- `PurityAnalyzer.PURE_BUILTINS`. -/
def PURE_BUILTINS : List String :=
  ["abs", "all", "any", "bin", "bool", "chr", "complex", "dict", "divmod",
   "enumerate", "float", "format", "frozenset", "hex", "int", "len", "list",
   "max", "min", "oct", "ord", "pow", "range", "reversed", "round", "set",
   "slice", "sorted", "str", "sum", "tuple", "type", "zip"]

/-- `PurityAnalyzer.PURE_MODULES`. -/
def PURE_MODULES : List String :=
  ["math", "cmath", "decimal", "fractions", "statistics", "operator",
   "functools", "itertools"]

/-- `PurityAnalyzer.IMPURE_BUILTINS`. -/
def IMPURE_BUILTINS : List String :=
  ["print", "input", "open", "exec", "eval", "compile", "__import__",
   "globals", "locals", "vars", "dir", "help", "id", "hash"]

/-- The user-extensible set `self.pure_functions`; the orchestrator never
marks a function, so it stays empty. -/
def pureFunctionsInit : List String := []

/-- The user-extensible set `self.impure_functions`; likewise empty. -/
def impureFunctionsInit : List String := []

/-- `PurityAnalyzer._get_function_name`: dotted name of the called
function, or a complex-expression marker. -/
def getFunctionName : Expr → String
  | .name id _ => id
  | .attribute v attr => getFunctionName v ++ "." ++ attr
  | _ => "<complex>"

/-- The module prefix `func_name.split(".")[0]`: the text before the first
dot.  Python `split` with a one-character separator always yields a
non-empty list whose head is the maximal separator-free prefix. -/
def firstDotSegment (s : String) : String :=
  String.mk (s.data.takeWhile fun c => c ≠ '.')

mutual
/-- `PurityAnalyzer._analyze_expression`: bottom-up purity classification
of an expression. -/
def analyzeExpr : Expr → PurityResult
  | .constant _ => ⟨.pure, "Literal value"⟩
  | .name _ _ => ⟨.pure, "Variable reference"⟩
  | .attribute value _ =>
      let vr := analyzeExpr value
      if vr.level = .pure then ⟨.pure, "Attribute access on pure value"⟩ else vr
  | .binOp l _ r =>
      let lr := analyzeExpr l
      let rr := analyzeExpr r
      if lr.level = .pure ∧ rr.level = .pure then
        ⟨.pure, "Binary operation on pure operands"⟩
      else if lr.level = .impure then lr
      else rr
  | .compare l _ comps =>
      let lr := analyzeExpr l
      if lr.level ≠ .pure then lr
      else
        match firstNonPureExpr comps with
        | some r => r
        | none => ⟨.pure, "Comparison of pure values"⟩
  | .boolOp _ values =>
      match firstNonPureExpr values with
      | some r => r
      | none => ⟨.pure, "Boolean operation on pure values"⟩
  | .unaryOp _ operand => analyzeExpr operand
  | .call f args kws => analyzeFunctionCall f args kws
  | .ifExp t b o =>
      let tr := analyzeExpr t
      let br := analyzeExpr b
      let orr := analyzeExpr o
      if tr.level ≠ .pure then tr
      else if br.level ≠ .pure then br
      else if orr.level ≠ .pure then orr
      else ⟨.pure, "Conditional expression with pure parts"⟩
  | .subscript v i =>
      let vr := analyzeExpr v
      let ir := analyzeExpr i
      if vr.level = .pure ∧ ir.level = .pure then
        ⟨.pure, "Subscript access on pure values"⟩
      else if vr.level ≠ .pure then vr
      else ir
  | .listLit elts => containerResult "List" elts
  | .tupleLit elts => containerResult "Tuple" elts
  | .setLit elts => containerResult "Set" elts
  | .lambda _ _ body => analyzeExpr body
  | .unknownExpr kind => ⟨.unknown, "Unknown expression type: " ++ kind⟩
termination_by e => 2 * sizeOf e
decreasing_by
  all_goals simp_wf
  all_goals (try simp)
  all_goals omega

/-- Loop pattern used throughout the analyzer: analyze each expression and
return the first result that is not `Pure`, if any. -/
def firstNonPureExpr : List Expr → Option PurityResult
  | [] => none
  | e :: rest =>
      let r := analyzeExpr e
      if r.level = .pure then firstNonPureExpr rest else some r
termination_by l => 2 * sizeOf l
decreasing_by
  all_goals simp_wf
  all_goals (try simp)
  all_goals omega

/-- Container-literal branch of `_analyze_expression` (List, Tuple, Set). -/
def containerResult (kindName : String) (elts : List Expr) : PurityResult :=
  match firstNonPureExpr elts with
  | some r => r
  | none => ⟨.pure, kindName ++ " literal with pure elements"⟩
termination_by 2 * sizeOf elts + 1
decreasing_by
  all_goals simp_wf
  all_goals (try simp)
  all_goals omega

/-- `PurityAnalyzer._analyze_function_call`: arguments and keyword values
first, then the callee name against the built-in and module tables. -/
def analyzeFunctionCall (f : Expr) (args kws : List Expr) : PurityResult :=
  match firstNonPureExpr args with
  | some r => r
  | none =>
    match firstNonPureExpr kws with
    | some r => r
    | none =>
      let funcName := getFunctionName f
      if IMPURE_BUILTINS.contains funcName then
        ⟨.impure, "Call to impure builtin: " ++ funcName⟩
      else if PURE_BUILTINS.contains funcName then
        ⟨.pure, "Call to pure builtin: " ++ funcName⟩
      else if pureFunctionsInit.contains funcName then
        ⟨.pure, "Call to known pure function: " ++ funcName⟩
      else if impureFunctionsInit.contains funcName then
        ⟨.impure, "Call to known impure function: " ++ funcName⟩
      else if funcName.data.contains '.' &&
          PURE_MODULES.contains (firstDotSegment funcName) then
        ⟨.pure, "Call to function in pure module: " ++ funcName⟩
      else
        ⟨.impure, "Unknown function call (conservative): " ++ funcName⟩
termination_by 2 * (sizeOf args + sizeOf kws) + 1
decreasing_by
  all_goals simp_wf
  all_goals (try simp)
  all_goals omega

/-- `PurityAnalyzer._analyze_statement`. -/
def analyzeStmt : Stmt → PurityResult
  | .returnStmt value =>
      match value with
      | some v => analyzeExpr v
      | none => ⟨.pure, "Return statement with no value"⟩
  | .exprStmt v => analyzeExpr v
  | .assign targets value =>
      let vr := analyzeExpr value
      if vr.level ≠ .pure then vr
      else if targets.all fun t => match t with | .name _ _ => true | _ => false then
        ⟨.pure, "Assignment to local variables with pure RHS"⟩
      else
        ⟨.impure, "Assignment to attribute or subscript (potentially side-effecting)"⟩
  | .assertStmt test msg =>
      let tr := analyzeExpr test
      match msg with
      | some m =>
          let mr := analyzeExpr m
          if mr.level ≠ .pure then mr else tr
      | none => tr
  | .passStmt => ⟨.pure, "Pass statement"⟩
  | .ifStmt t b e => analyzeIfStatement t b e
  | .forStmt _ => ⟨.impure, "Control flow statement: For"⟩
  | .whileStmt _ => ⟨.impure, "Control flow statement: While"⟩
  | .tryStmt => ⟨.impure, "Control flow statement: Try"⟩
  | .withStmt => ⟨.impure, "Control flow statement: With"⟩
  | .functionDefStmt _ => ⟨.impure, "Definition statement: FunctionDef"⟩
  | .classDefStmt _ => ⟨.impure, "Definition statement: ClassDef"⟩
  | .asyncFunctionDefStmt _ => ⟨.impure, "Definition statement: AsyncFunctionDef"⟩
  | .importStmt => ⟨.impure, "Import statement"⟩
  | .importFromStmt => ⟨.impure, "Import statement"⟩
  | s => ⟨.impure, "Statement type " ++ stmtKindName s ++ " assumed impure"⟩
termination_by s => 2 * sizeOf s
decreasing_by
  all_goals simp_wf
  all_goals (try simp)
  all_goals omega

/-- `PurityAnalyzer._analyze_if_statement`: test, then the if body, then
elif clauses and the else body, each failure wrapped with its own reason. -/
def analyzeIfStatement (t : Expr) (body orelse : List Stmt) : PurityResult :=
  let tr := analyzeExpr t
  if tr.level ≠ .pure then
    ⟨.impure, "If statement test is impure: " ++ tr.reason⟩
  else
    match analyzeIfBody body with
    | some r => r
    | none =>
      match analyzeOrelse orelse with
      | some r => r
      | none => ⟨.pure, "Pure conditional statement"⟩
termination_by 2 * (sizeOf t + sizeOf body + sizeOf orelse) + 1
decreasing_by
  all_goals simp_wf
  all_goals (try simp)
  all_goals omega

/-- Body loop of `_analyze_if_statement`. -/
def analyzeIfBody : List Stmt → Option PurityResult
  | [] => none
  | s :: rest =>
      let r := analyzeStmt s
      if r.level = .pure then analyzeIfBody rest
      else some ⟨.impure, "If statement body is impure: " ++ r.reason⟩
termination_by l => 2 * sizeOf l
decreasing_by
  all_goals simp_wf
  all_goals (try simp)
  all_goals omega

/-- Orelse loop of `_analyze_if_statement`: a nested `if` is an elif
clause and is analyzed recursively, anything else is an else-body
statement. -/
def analyzeOrelse : List Stmt → Option PurityResult
  | [] => none
  | c :: rest =>
      match c with
      | .ifStmt t b e =>
          let r := analyzeIfStatement t b e
          if r.level = .pure then analyzeOrelse rest
          else some ⟨.impure, "Elif clause is impure: " ++ r.reason⟩
      | other =>
          let r := analyzeStmt other
          if r.level = .pure then analyzeOrelse rest
          else some ⟨.impure, "Else clause is impure: " ++ r.reason⟩
termination_by l => 2 * sizeOf l
decreasing_by
  all_goals simp_wf
  all_goals (try simp)
  all_goals omega
end

/-! ### Sub-construct enumeration for the purity claim

The claim quantifies over the sub-constructs of an expression or
statement: the children of a node in the sense of `ast.iter_child_nodes`,
transitively.  `subE e` lists every proper sub-expression of `e`;
`stmtSubExprs`/`stmtSubStmts` list every expression, respectively every
proper sub-statement, nested inside a statement. -/

mutual

def subE : Expr → List Expr
  | .constant _ => []
  | .name _ _ => []
  | .attribute v _ => v :: subE v
  | .binOp l _ r => (l :: subE l) ++ (r :: subE r)
  | .unaryOp _ o => o :: subE o
  | .boolOp _ vs => subEList vs
  | .compare l _ cs => (l :: subE l) ++ subEList cs
  | .call f as ks => (f :: subE f) ++ subEList as ++ subEList ks
  | .ifExp t b o => (t :: subE t) ++ (b :: subE b) ++ (o :: subE o)
  | .subscript v i => (v :: subE v) ++ (i :: subE i)
  | .listLit es => subEList es
  | .tupleLit es => subEList es
  | .setLit es => subEList es
  | .lambda _ ds b => subEList ds ++ (b :: subE b)
  | .unknownExpr _ => []

def subEList : List Expr → List Expr
  | [] => []
  | e :: rest => (e :: subE e) ++ subEList rest

end

mutual

def stmtSubExprs : Stmt → List Expr
  | .assign ts v => subEList ts ++ (v :: subE v)
  | .augAssign t _ v => (t :: subE t) ++ (v :: subE v)
  | .exprStmt v => v :: subE v
  | .assertStmt t m =>
      (t :: subE t) ++ (match m with | some e => e :: subE e | none => [])
  | .ifStmt t b o => (t :: subE t) ++ stmtListSubExprs b ++ stmtListSubExprs o
  | .returnStmt v => match v with | some e => e :: subE e | none => []
  | .forStmt b => stmtListSubExprs b
  | .whileStmt b => stmtListSubExprs b
  | _ => []

def stmtListSubExprs : List Stmt → List Expr
  | [] => []
  | s :: rest => stmtSubExprs s ++ stmtListSubExprs rest

end

mutual

def stmtSubStmts : Stmt → List Stmt
  | .ifStmt _ b o => stmtListSubStmts b ++ stmtListSubStmts o
  | .forStmt b => stmtListSubStmts b
  | .whileStmt b => stmtListSubStmts b
  | _ => []

def stmtListSubStmts : List Stmt → List Stmt
  | [] => []
  | s :: rest => (s :: stmtSubStmts s) ++ stmtListSubStmts rest

end

/-! ### The analyzed fragment

`cleanE`/`cleanS` delimit the constructs fully covered by the analyzer
tables: no `unknownExpr` or `unknownStmt` node (an expression or statement
kind outside the embedded fragment) and no `lambda` node (whose
default-value expressions `_analyze_expression` does not visit). -/

mutual

def cleanE : Expr → Bool
  | .constant _ => true
  | .name _ _ => true
  | .attribute v _ => cleanE v
  | .binOp l _ r => cleanE l && cleanE r
  | .unaryOp _ o => cleanE o
  | .boolOp _ vs => cleanEList vs
  | .compare l _ cs => cleanE l && cleanEList cs
  | .call f as ks => cleanE f && cleanEList as && cleanEList ks
  | .ifExp t b o => cleanE t && cleanE b && cleanE o
  | .subscript v i => cleanE v && cleanE i
  | .listLit es => cleanEList es
  | .tupleLit es => cleanEList es
  | .setLit es => cleanEList es
  | .lambda _ _ _ => false
  | .unknownExpr _ => false

def cleanEList : List Expr → Bool
  | [] => true
  | e :: rest => cleanE e && cleanEList rest

end

mutual

def cleanS : Stmt → Bool
  | .assign ts v => cleanEList ts && cleanE v
  | .augAssign t _ v => cleanE t && cleanE v
  | .exprStmt v => cleanE v
  | .passStmt => true
  | .assertStmt t m =>
      cleanE t && (match m with | some e => cleanE e | none => true)
  | .ifStmt t b o => cleanE t && cleanSList b && cleanSList o
  | .returnStmt v => match v with | some e => cleanE e | none => true
  | .forStmt b => cleanSList b
  | .whileStmt b => cleanSList b
  | .tryStmt => true
  | .withStmt => true
  | .functionDefStmt _ => true
  | .asyncFunctionDefStmt _ => true
  | .classDefStmt _ => true
  | .importStmt => true
  | .importFromStmt => true
  | .unknownStmt _ => false

def cleanSList : List Stmt → Bool
  | [] => true
  | s :: rest => cleanS s && cleanSList rest

end

/-! ## SMT translator (logic/smt_translator.py) -/

/-- Supported variable types (`VariableType`). -/
inductive VariableType where
  | int
  | real
  | bool
  | string
  | list
  | unknown
  | optionalInt
  | optionalReal
  | optionalBool
  | optionalString
deriving DecidableEq, Repr

/-- Exceptions raised during translation.  `unsupportedConstruct` and
`typeInference` are the dedicated `TranslationError` subclasses;
`pythonError` stands for any other runtime exception escaping the
translator (all three are caught alike by the orchestrator). -/
inductive TranslationErr where
  | unsupportedConstruct (msg : String)
  | typeInference (msg : String)
  | pythonError (msg : String)
deriving DecidableEq, Repr

/-- Rendering of a translation error as the message string the
orchestrator records. -/
def TranslationErr.msg : TranslationErr → String
  | .unsupportedConstruct m => m
  | .typeInference m => m
  | .pythonError m => m

/-- Z3 terms, modelled syntactically.  `noneMarker` stands for the Python
`None` that `_translate_expr` returns for a `None` literal (a sentinel,
not a solver term); `noneOf ty` is the `None` constructor of the optional
datatype for `ty`; `uf` is an application of an uninterpreted function. -/
inductive Term where
  | intVal (n : Int)
  | boolVal (b : Bool)
  | strVal (s : String)
  | var (vname : String)
  | noneMarker
  | noneOf (ty : VariableType)
  | add (a b : Term)
  | sub (a b : Term)
  | mul (a b : Term)
  | div (a b : Term)
  | mod (a b : Term)
  | powUF (a b : Term)
  | eq (a b : Term)
  | ne (a b : Term)
  | lt (a b : Term)
  | le (a b : Term)
  | gt (a b : Term)
  | ge (a b : Term)
  | andT (ts : List Term)
  | orT (ts : List Term)
  | notT (t : Term)
  | neg (t : Term)
  | iteT (c a b : Term)
  | uf (fname : String) (args : List Term)

/-- A declared solver variable (`Z3Variable`). -/
structure Z3Variable where
  name : String
  z3Var : Term
  varType : VariableType
  pythonName : String

/-- The Z3 solver, modelled as a stack of assertion frames.  The head
frame is the innermost push scope; `assertions` lists all constraints in
chronological order. -/
structure Solver where
  frames : List (List Term)

/-- A freshly created solver has one empty base frame. -/
def Solver.empt : Solver := ⟨[[]]⟩

/-- `solver.push()`. -/
def Solver.push (s : Solver) : Solver := ⟨[] :: s.frames⟩

/-- `solver.pop()`. -/
def Solver.pop (s : Solver) : Solver := ⟨s.frames.tail⟩

/-- `solver.add(t)`: append to the innermost frame. -/
def Solver.addT (s : Solver) (t : Term) : Solver :=
  match s.frames with
  | [] => ⟨[[t]]⟩
  | f :: rest => ⟨(f ++ [t]) :: rest⟩

/-- All assertions currently on the solver, oldest first. -/
def Solver.assertions (s : Solver) : List Term := s.frames.reverse.join

/-- Mutable state of an `SMTTranslator` instance.  The symbol table
`self.variables` (called `vars` here) is an insertion-ordered association
list keyed by Python variable name. -/
structure TranslatorState where
  solver : Solver
  vars : List (String × Z3Variable)
  typeHints : List (String × VariableType)
  varCounter : Nat
  unsupportedConstructs : List String

/-- State of a freshly constructed translator. -/
def initTranslator : TranslatorState :=
  { solver := Solver.empt, vars := [], typeHints := [], varCounter := 0,
    unsupportedConstructs := [] }

/-- `SMTTranslator.reset()`: clears the solver, the symbol table, the type
hints and the unsupported-construct log, and sets the variable counter
back to zero; the optional datatypes are re-created identically. -/
def resetTranslator (_st : TranslatorState) : TranslatorState := initTranslator

/-- The unique solver-constant name allocated for the `i`-th allocation of
a Python variable: `f"{name}_{self._var_counter}"`. -/
def mkUniqueName (pname : String) (i : Nat) : String :=
  pname ++ "_" ++ toString i

/-- The solver constant created for a unique name at a given type, or
`none` for the types the `elif` chain does not cover (then the source
raises `UnsupportedConstructError`). -/
def mkZ3VarTerm (uniqueName : String) : VariableType → Option Term
  | .int => some (.var uniqueName)
  | .real => some (.var uniqueName)
  | .bool => some (.var uniqueName)
  | .string => some (.var uniqueName)
  | .optionalInt => some (.var uniqueName)
  | .optionalReal => some (.var uniqueName)
  | .optionalBool => some (.var uniqueName)
  | .optionalString => some (.var uniqueName)
  | _ => none

/-- The type used for a new variable: the explicit argument if given,
otherwise the recorded type hint, defaulting to unknown. -/
def resolveVarType (st : TranslatorState) (pname : String)
    (varTypeArg : Option VariableType) : VariableType :=
  match varTypeArg with
  | some t => t
  | none => (st.typeHints.lookup pname).getD .unknown

/-- `get_or_create_variable`: return the existing binding, or allocate a
fresh solver constant named with the current counter value.  The counter
is incremented as soon as the unique name is taken, even if the type
dispatch then raises.  The updated state is returned in either case. -/
def getOrCreateVariable (st : TranslatorState) (pname : String)
    (varTypeArg : Option VariableType) : Except TranslationErr Z3Variable × TranslatorState :=
  match st.vars.lookup pname with
  | some v => (.ok v, st)
  | none =>
    if resolveVarType st pname varTypeArg = .unknown then
      (.error (.typeInference ("Cannot determine type for variable " ++ pname)), st)
    else
      let uniqueName := mkUniqueName pname st.varCounter
      let st1 := { st with varCounter := st.varCounter + 1 }
      match mkZ3VarTerm uniqueName (resolveVarType st pname varTypeArg) with
      | some z3v =>
          let v : Z3Variable :=
            { name := uniqueName, z3Var := z3v,
              varType := resolveVarType st pname varTypeArg, pythonName := pname }
          (.ok v, { st1 with vars := st1.vars ++ [(pname, v)] })
      | none => (.error (.unsupportedConstruct "Unsupported variable type"), st1)

/-- `add_constraint`: assert a term on the solver. -/
def addConstraint (st : TranslatorState) (t : Term) : TranslatorState :=
  { st with solver := st.solver.addT t }

/-- `_extract_isinstance_type`: map the second argument of an
`isinstance` call to a variable type. -/
def extractIsinstanceType : Expr → Option VariableType
  | .name "int" _ => some .int
  | .name "float" _ => some .real
  | .name "bool" _ => some .bool
  | .name "str" _ => some .string
  | .name "list" _ => some .list
  | _ => none

/-- `_handle_is_comparison`: only comparisons of a plain name against the
`None` literal are supported; the variable is (re)bound at the optional
version of its hinted type and compared with the `None` constructor. -/
def handleIsComparison (st : TranslatorState) (left right : Expr) (isEqual : Bool) :
    Except TranslationErr Term × TranslatorState :=
  match right with
  | .constant .noneL =>
    match left with
    | .name varName _ =>
        let baseType := (st.typeHints.lookup varName).getD .int
        let optionalType :=
          match baseType with
          | .optionalInt => .optionalInt
          | .optionalReal => .optionalReal
          | .optionalBool => .optionalBool
          | .optionalString => .optionalString
          | .int => .optionalInt
          | .real => .optionalReal
          | .bool => .optionalBool
          | .string => .optionalString
          | _ => VariableType.optionalInt
        match getOrCreateVariable st varName (some optionalType) with
        | (.ok v, st1) =>
            let check := Term.eq v.z3Var (Term.noneOf optionalType)
            (.ok (if isEqual then check else Term.notT check), st1)
        | (.error e, st1) => (.error e, st1)
    | _ => (.error (.unsupportedConstruct "Unsupported is comparison"), st)
  | _ => (.error (.unsupportedConstruct "Unsupported is comparison"), st)

mutual
/-- `_translate_expr`: translate an expression to a solver term,
threading the translator state (symbol table, counter, solver).  Branches
follow the dispatch order of the source; every expression kind without a
branch falls to the final raise. -/
def translateExpr (st : TranslatorState) : Expr → Except TranslationErr Term × TranslatorState
  | .constant v =>
      match v with
      | .boolL b => (.ok (.boolVal b), st)
      | .intL n => (.ok (.intVal n), st)
      | .strL s => (.ok (.strVal s), st)
      | .noneL => (.ok .noneMarker, st)
  | .name id ctx =>
      match ctx with
      | .load =>
          match getOrCreateVariable st id none with
          | (.ok v, st1) => (.ok v.z3Var, st1)
          | (.error e, st1) => (.error e, st1)
      | .store => (.error (.unsupportedConstruct "Unsupported name context: Store"), st)
  | .binOp l op r =>
      match translateExpr st l with
      | (.error e, st1) => (.error e, st1)
      | (.ok lt, st1) =>
        match translateExpr st1 r with
        | (.error e, st2) => (.error e, st2)
        | (.ok rt, st2) =>
          match op with
          | .addOp => (.ok (.add lt rt), st2)
          | .subOp => (.ok (.sub lt rt), st2)
          | .multOp => (.ok (.mul lt rt), st2)
          | .divOp => (.ok (.div lt rt), st2)
          | .modOp => (.ok (.mod lt rt), st2)
          | .powOp => (.ok (.powUF lt rt), st2)
  | .compare l ops comps =>
      match ops with
      | [CmpOp.isOp] =>
          match comps with
          | c :: _ => handleIsComparison st l c true
          | [] => (.error (.pythonError "list index out of range"), st)
      | [CmpOp.isNotOp] =>
          match comps with
          | c :: _ => handleIsComparison st l c false
          | [] => (.error (.pythonError "list index out of range"), st)
      | [CmpOp.inOp] =>
          match comps with
          | c :: _ => handleMembershipTestingAst st l c true
          | [] => (.error (.pythonError "list index out of range"), st)
      | [CmpOp.notInOp] =>
          match comps with
          | c :: _ => handleMembershipTestingAst st l c false
          | [] => (.error (.pythonError "list index out of range"), st)
      | _ =>
          match translateExpr st l with
          | (.error e, st1) => (.error e, st1)
          | (.ok lt, st1) => translateCmpChain st1 lt true ops comps
  | .boolOp op values =>
      match translateExprList st values with
      | (.error e, st1) => (.error e, st1)
      | (.ok ts, st1) =>
          match op with
          | .bAnd => (.ok (.andT ts), st1)
          | .bOr => (.ok (.orT ts), st1)
  | .unaryOp op operand =>
      match translateExpr st operand with
      | (.error e, st1) => (.error e, st1)
      | (.ok t, st1) =>
          match op with
          | .uAdd => (.ok t, st1)
          | .uSub => (.ok (.neg t), st1)
          | .uNot => (.ok (.notT t), st1)
  | .call f args _kws => translateCall st f args
  | _ => (.error (.unsupportedConstruct "Only simple function names supported"), st)
termination_by e => 2 * sizeOf e
decreasing_by
  all_goals simp_wf
  all_goals (try simp)
  all_goals omega

/-- The comparator loop of the `Compare` branch: each comparator is
translated and compared against the accumulated result; after the first
comparison the accumulator is the previous comparison, and further ones
are conjoined. -/
def translateCmpChain (st : TranslatorState) (acc : Term) (isFirst : Bool) :
    List CmpOp → List Expr → Except TranslationErr Term × TranslatorState
  | op :: restOps, c :: restComps =>
      match translateExpr st c with
      | (.error e, st1) => (.error e, st1)
      | (.ok rt, st1) =>
        let comparison : Except TranslationErr Term :=
          match op with
          | .eqOp => .ok (.eq acc rt)
          | .notEqOp => .ok (.ne acc rt)
          | .ltOp => .ok (.lt acc rt)
          | .ltEOp => .ok (.le acc rt)
          | .gtOp => .ok (.gt acc rt)
          | .gtEOp => .ok (.ge acc rt)
          | _ => .error (.unsupportedConstruct "Unsupported comparison operator")
        match comparison with
        | .error e => (.error e, st1)
        | .ok cmp =>
            if isFirst then translateCmpChain st1 cmp false restOps restComps
            else translateCmpChain st1 (.andT [acc, cmp]) false restOps restComps
  | _, _ => (.ok acc, st)
termination_by ops comps => 2 * sizeOf comps
decreasing_by
  all_goals simp_wf
  all_goals (try simp)
  all_goals omega

/-- Sequential translation of a list of expressions, failing on the
first exception, as the list comprehensions in the source do. -/
def translateExprList (st : TranslatorState) :
    List Expr → Except TranslationErr (List Term) × TranslatorState
  | [] => (.ok [], st)
  | e :: rest =>
      match translateExpr st e with
      | (.error err, st1) => (.error err, st1)
      | (.ok t, st1) =>
          match translateExprList st1 rest with
          | (.error err, st2) => (.error err, st2)
          | (.ok ts, st2) => (.ok (t :: ts), st2)
termination_by l => 2 * sizeOf l
decreasing_by
  all_goals simp_wf
  all_goals (try simp)
  all_goals omega

/-- `_handle_membership_testing_ast`: membership of the left expression
in a literal list.  The left side is translated first; an empty literal
list yields the constant boolean `not is_in`, a single element one plain
equality, several elements a disjunction, negated for `not in`. -/
def handleMembershipTestingAst (st : TranslatorState) (left right : Expr)
    (isIn : Bool) : Except TranslationErr Term × TranslatorState :=
  match right with
  | .listLit elts =>
      match translateExpr st left with
      | (.error e, st1) => (.error e, st1)
      | (.ok leftZ3, st1) =>
          match translateExprList st1 elts with
          | (.error e, st2) => (.error e, st2)
          | (.ok eltTerms, st2) =>
              let conditions := eltTerms.map fun t => Term.eq leftZ3 t
              match conditions with
              | [] => (.ok (.boolVal (!isIn)), st2)
              | [single] =>
                  (.ok (if isIn then single else Term.notT single), st2)
              | _ =>
                  let result := Term.orT conditions
                  (.ok (if isIn then result else Term.notT result), st2)
  | _ =>
      (.error (.unsupportedConstruct "Membership testing only supported for literal lists"),
        st)
termination_by 2 * (sizeOf left + sizeOf right) + 1
decreasing_by
  all_goals simp_wf
  all_goals (try simp)
  all_goals omega

/-- The `Call` branch of `_translate_expr`: the callee must be a plain
name (otherwise `func_name` is Python `None` and building the
uninterpreted function raises); `isinstance` is special-cased before the
arguments are translated, then the pure-builtin handlers, then an
uninterpreted function application. -/
def translateCall (st : TranslatorState) (f : Expr) (args : List Expr) :
    Except TranslationErr Term × TranslatorState :=
  match f with
  | .name fid _ =>
    if fid = "isinstance" then
      match args with
      | varExpr :: typeExpr :: _ =>
          (match varExpr with
           | .name varName _ =>
               match extractIsinstanceType typeExpr with
               | some ty =>
                   (match (st.vars.lookup varName) with
                    | some v => (.ok (.boolVal (v.varType = ty)), st)
                    | none => (.ok (.boolVal true), st))
               | none => (.ok (.boolVal true), st)
           | _ => (.ok (.boolVal true), st))
      | _ => (.ok (.boolVal true), st)
    else if fid = "abs" ∨ fid = "min" ∨ fid = "max" ∨ fid = "len" ∨ fid = "bool" then
      match translateExprList st args with
      | (.error e, st1) => (.error e, st1)
      | (.ok ts, st1) =>
        if fid = "len" then
          match args with
          | [arg] =>
              (match arg with
               | .name containerName _ =>
                   let lenVarName := containerName ++ "_len"
                   (match st1.vars.lookup lenVarName with
                    | none =>
                        match getOrCreateVariable st1 lenVarName (some .int) with
                        | (.ok lenVar, st2) =>
                            let st3 := addConstraint st2 (Term.ge lenVar.z3Var (.intVal 0))
                            (.ok lenVar.z3Var, st3)
                        | (.error e, st2) => (.error e, st2)
                    | some lenVar => (.ok lenVar.z3Var, st1))
               | _ =>
                   match ts with
                   | t :: _ => (.ok (.uf "len" [t]), st1)
                   | [] => (.error (.pythonError "list index out of range"), st1))
          | _ => (.error (.unsupportedConstruct "len() requires exactly one argument"), st1)
        else if fid = "abs" then
          match ts with
          | [x] => (.ok (.iteT (.ge x (.intVal 0)) x (.neg x)), st1)
          | _ => (.error (.pythonError "wrong number of arguments"), st1)
        else if fid = "min" then
          match ts with
          | [x, y] => (.ok (.iteT (.le x y) x y), st1)
          | _ => (.error (.pythonError "wrong number of arguments"), st1)
        else if fid = "max" then
          match ts with
          | [x, y] => (.ok (.iteT (.ge x y) x y), st1)
          | _ => (.error (.pythonError "wrong number of arguments"), st1)
        else
          match ts with
          | [x] => (.ok (.ne x (.intVal 0)), st1)
          | _ => (.error (.pythonError "wrong number of arguments"), st1)
    else
      match translateExprList st args with
      | (.error e, st1) => (.error e, st1)
      | (.ok ts, st1) => (.ok (.uf fid ts), st1)
  | _ => (.error (.pythonError "z3.Function called with None name"), st)
termination_by 2 * (sizeOf f + sizeOf args) + 1
decreasing_by
  all_goals simp_wf
  all_goals (try simp)
  all_goals omega
end

/-- `translate_assertion` without a context dictionary (as the
orchestrator calls it): translate the test of the assert node. -/
def translateAssertion (st : TranslatorState) (test : Expr) :
    Except TranslationErr Term × TranslatorState :=
  translateExpr st test

/-- Outcome of one `solver.check()` call plus model extraction, supplied
by an oracle standing for Z3: a model maps unique constant names to
values (abstracted as integers), `raised` stands for any exception thrown
while checking or extracting. -/
inductive CheckOutcome where
  | sat (m : String → Option Int)
  | unsat
  | unknown
  | raised (msg : String)

/-- The model dictionary built on a sat answer: one entry per symbol-table
variable that the model assigns, keyed by Python name.  The per-sort value
conversions are abstracted away. -/
def modelDict (st : TranslatorState) (m : String → Option Int) : List (String × Int) :=
  st.vars.filterMap fun p => (m p.2.name).map fun val => (p.1, val)

/-- `find_counterexample`: push a scope, assert the negation of the
assertion, check satisfiability against the accumulated constraints, and
pop the scope again on every path (the source pops in a `finally`
block, so also when an exception is raised). -/
def findCounterexample (oracle : List Term → CheckOutcome) (st : TranslatorState)
    (assertion : Term) :
    Except String (Bool × Option (List (String × Int))) × TranslatorState :=
  let s2 := (st.solver.push).addT (Term.notT assertion)
  let st2 : TranslatorState := { st with solver := s2 }
  match oracle s2.assertions with
  | .sat m => (.ok (true, some (modelDict st2 m)), { st2 with solver := s2.pop })
  | .unsat => (.ok (false, none), { st2 with solver := s2.pop })
  | .unknown => (.ok (false, none), { st2 with solver := s2.pop })
  | .raised msg => (.error msg, { st2 with solver := s2.pop })

/-- Operations driven against one translator instance, for stating the
fresh-naming behaviour of the symbol table across resets. -/
inductive TransOp where
  | create (pname : String) (ty : Option VariableType)
  | resetOp
deriving DecidableEq, Repr

/-- Apply one operation to the translator state. -/
def applyOp (st : TranslatorState) : TransOp → TranslatorState
  | .create n t => (getOrCreateVariable st n t).2
  | .resetOp => resetTranslator st

/-- Run a sequence of operations from a freshly constructed translator. -/
def runOps (ops : List TransOp) : TranslatorState :=
  ops.foldl applyOp initTranslator

/-- The unique name freshly allocated by an operation from a given state,
if any (`none` for resets, symbol-table hits and failed creations). -/
def allocName (st : TranslatorState) : TransOp → Option String
  | .resetOp => none
  | .create n t =>
      match st.vars.lookup n with
      | some _ => none
      | none =>
          match (getOrCreateVariable st n t).1 with
          | .ok v => some v.name
          | .error _ => none

/-- The unique names allocated while running a sequence of operations
from a given state, in order. -/
def namesAllocated (st : TranslatorState) : List TransOp → List String
  | [] => []
  | op :: rest =>
      (match allocName st op with
       | some u => [u]
       | none => []) ++ namesAllocated (applyOp st op) rest

/-! ## Verification orchestrator (verification/orchestrator.py) -/

/-- Roles of a discovered assertion (`AssertionType`). -/
inductive AssertionType where
  | precondition
  | postcondition
  | loopInvariant
  | general
  | termination
deriving DecidableEq, Repr

/-- The `.value` string of an assertion type. -/
def AssertionType.value : AssertionType → String
  | .precondition => "precondition"
  | .postcondition => "postcondition"
  | .loopInvariant => "loop_invariant"
  | .general => "general"
  | .termination => "termination"

/-- A discovered assertion (`AssertionInfo`) as the orchestrator consumes
it: `ident` stands for the identity of the underlying `ast.Assert` node
(dataclass equality compares the node by identity), `line` is the
location line (the finder always attaches a location, defaulting to line
0), and `testStr` is `ast.unparse(node.test)`. -/
structure AInfo where
  ident : Nat
  line : Nat
  atype : AssertionType
  testStr : String
deriving DecidableEq, Repr

/-- The description string recorded for an assertion:
`f"{assertion_type.value}: {unparse(test)}"`. -/
def assertionDesc (a : AInfo) : String := a.atype.value ++ ": " ++ a.testStr

/-- A function to verify, reduced to what the orchestrator logic
consumes: its name, its first line, and its discovered assertions. -/
structure PyFunction where
  fname : String
  startLine : Nat
  assertions : List AInfo

/-- `VerificationResult` (execution time omitted). -/
structure VerificationResult where
  functionName : String
  filePath : String
  success : Bool
  verifiedAssertions : List String
  failedAssertions : List String
  counterexamples : List (String × List (String × Int))
  errors : List String

/-- The assertions sorted by location line (`sorted` is stable, as is
`mergeSort`). -/
def sortByLine (assertions : List AInfo) : List AInfo :=
  assertions.mergeSort fun a b => decide (a.line ≤ b.line)

/-- The scan of `_classify_and_group_assertions` collecting the run of
consecutive assertions at the function start: each must begin within 10
lines of the function start and within 2 lines of the previously
collected assertion; the first assertion failing this ends the run. -/
def consecutiveStartGo (startLine : Nat) (lastLine : Option Nat) :
    List AInfo → List AInfo
  | [] => []
  | a :: rest =>
      let isNearStart := decide (((a.line : Int) - (startLine : Int)) ≤ 10)
      let isConsecutive :=
        match lastLine with
        | none => true
        | some l => decide (((a.line : Int) - (l : Int)) ≤ 2)
      if isNearStart && isConsecutive then
        a :: consecutiveStartGo startLine (some a.line) rest
      else []

/-- The loop classifying the assertions after the start run:
postconditions by type, preconditions by type unless already grouped,
anything else into the remaining group unless already grouped. -/
def classifyRemaining (pre post others : List AInfo) :
    List AInfo → List AInfo × List AInfo × List AInfo
  | [] => (pre, post, others)
  | a :: rest =>
      if a.atype = .postcondition then
        classifyRemaining pre (post ++ [a]) others rest
      else if a.atype = .precondition then
        if a ∈ pre then classifyRemaining pre post others rest
        else classifyRemaining (pre ++ [a]) post others rest
      else
        if a ∈ pre then classifyRemaining pre post others rest
        else classifyRemaining pre post (others ++ [a]) rest

/-- `_classify_and_group_assertions`: sort by line, collect the start
run as preconditions, then classify the rest. -/
def classifyAndGroupAssertions (assertions : List AInfo) (startLine : Nat) :
    List AInfo × List AInfo × List AInfo :=
  let sorted := sortByLine assertions
  let consecutive := consecutiveStartGo startLine none sorted
  classifyRemaining consecutive [] [] (sorted.drop consecutive.length)

/-- Outcome of one `find_counterexample` call as the orchestrator sees
it: no counterexample, a counterexample with its (possibly empty) model
dictionary, or an exception. -/
inductive CxOutcome where
  | ok (cex : Option (List (String × Int)))
  | raised (msg : String)

/-- Accumulator for the verification result lists. -/
structure ResultAcc where
  verified : List String
  failed : List String
  cexs : List (String × List (String × Int))
  errors : List String

/-- Step 5 of `verify_function`: translate each grouped precondition,
assert it as a hard constraint and report it verified; a translation
exception becomes an error entry and the loop continues. -/
def processPreconditions (translate : AInfo → Except String Term) :
    List AInfo → List Term → ResultAcc → List Term × ResultAcc
  | [], cs, acc => (cs, acc)
  | p :: rest, cs, acc =>
      match translate p with
      | .ok t =>
          processPreconditions translate rest (cs ++ [t])
            { acc with verified := acc.verified ++ [assertionDesc p] }
      | .error e =>
          processPreconditions translate rest cs
            { acc with errors := acc.errors ++ ["Failed to process precondition: " ++ e] }

/-- Steps 6 and 7 of `verify_function`: translate each assertion and run
the counterexample search under the given constraint set; no
counterexample verifies the assertion, a counterexample fails it (the
model is recorded only when the dictionary is non-empty, matching the
truthiness test of the source), and any exception becomes an error entry
with the given prefix. -/
def processChecked (translate : AInfo → Except String Term)
    (cx : List Term → Term → CxOutcome) (cs : List Term) (errPrefix : String) :
    List AInfo → ResultAcc → ResultAcc
  | [], acc => acc
  | q :: rest, acc =>
      match translate q with
      | .ok t =>
          match cx cs t with
          | .ok none =>
              processChecked translate cx cs errPrefix rest
                { acc with verified := acc.verified ++ [assertionDesc q] }
          | .ok (some m) =>
              let acc1 := { acc with failed := acc.failed ++ [assertionDesc q] }
              let acc2 :=
                if m.isEmpty then acc1
                else { acc1 with cexs := acc1.cexs ++ [(assertionDesc q, m)] }
              processChecked translate cx cs errPrefix rest acc2
          | .raised msg =>
              processChecked translate cx cs errPrefix rest
                { acc with errors := acc.errors ++ [errPrefix ++ msg] }
      | .error e =>
          processChecked translate cx cs errPrefix rest
            { acc with errors := acc.errors ++ [errPrefix ++ e] }

/-- The postcondition group that `verify_function` actually checks: it
discards the classified postconditions and recomputes them from all
function assertions by type. -/
def usedPostconditions (fn : PyFunction) : List AInfo :=
  fn.assertions.filter fun a => a.atype = AssertionType.postcondition

/-- The remaining-assertion group that `verify_function` actually checks,
recomputed from all function assertions by type. -/
def usedOtherAssertions (fn : PyFunction) : List AInfo :=
  fn.assertions.filter fun a =>
    ¬(a.atype = AssertionType.precondition ∨ a.atype = AssertionType.postcondition)

/-- The precondition group `verify_function` uses: the first component of
`_classify_and_group_assertions`. -/
def usedPreconditions (fn : PyFunction) : List AInfo :=
  (classifyAndGroupAssertions fn.assertions fn.startLine).1

/-- `verify_function`: discovery with no assertions is a trivial success;
otherwise group the assertions, assert the grouped preconditions on top
of the flow-insensitive assignment constraints, counterexample-check the
recomputed postconditions under those constraints, then reset the solver
(dropping every constraint) and counterexample-check the remaining
assertions.  The translator and solver are abstracted by the `translate`
and `cx` oracles; `assignC` are the constraints added by
`_add_assignment_constraints`. -/
def verifyFunction (translate : AInfo → Except String Term)
    (cx : List Term → Term → CxOutcome) (assignC : List Term)
    (filePath : String) (fn : PyFunction) : VerificationResult :=
  if fn.assertions.isEmpty then
    { functionName := fn.fname, filePath := filePath, success := true,
      verifiedAssertions := [], failedAssertions := [], counterexamples := [],
      errors := [] }
  else
    let preconds := usedPreconditions fn
    let postconds := usedPostconditions fn
    let others := usedOtherAssertions fn
    let (cs, acc1) := processPreconditions translate preconds assignC ⟨[], [], [], []⟩
    let acc2 := processChecked translate cx cs
      "SMT verification failed for postcondition: " postconds acc1
    let acc3 :=
      if others.isEmpty then acc2
      else processChecked translate cx []
        "SMT verification failed for assertion: " others acc2
    { functionName := fn.fname, filePath := filePath,
      success := acc3.errors.isEmpty && acc3.failed.isEmpty,
      verifiedAssertions := acc3.verified, failedAssertions := acc3.failed,
      counterexamples := acc3.cexs, errors := acc3.errors }

/-- `verify_source` after a successful parse: one `VerificationResult`
per function definition, in order; `verify_function` catches every
exception internally, so each function is processed independently. -/
def verifySource (translate : AInfo → Except String Term)
    (cx : List Term → Term → CxOutcome) (assignC : PyFunction → List Term)
    (filePath : String) (funcs : List PyFunction) : List VerificationResult :=
  funcs.map fun fn => verifyFunction translate cx (assignC fn) filePath fn

/-! ## Theorems -/

/-- C7: `find_counterexample` pushes a scope, asserts the negation of the
given term, queries the solver on the accumulated assertions plus that
negation, and pops the scope on every outcome — sat, unsat, unknown, or an
exception — so the translator state (in particular the solver assertion
set) after the call equals the state before it, and the returned value is
determined by the oracle answer. -/
theorem C7_find_counterexample_frame (oracle : List Term → CheckOutcome)
    (st : TranslatorState) (t : Term) :
    (findCounterexample oracle st t).2 = st ∧
    (findCounterexample oracle st t).1 =
      (match oracle (st.solver.assertions ++ [Term.notT t]) with
       | .sat m => .ok (true, some (modelDict st m))
       | .unsat => .ok (false, none)
       | .unknown => .ok (false, none)
       | .raised msg => .error msg) := by
  have hassert : ((st.solver.push).addT (Term.notT t)).assertions
      = st.solver.assertions ++ [Term.notT t] := by
    simp [Solver.push, Solver.addT, Solver.assertions]
  have hpop : ((st.solver.push).addT (Term.notT t)).pop = st.solver := by
    simp [Solver.push, Solver.addT, Solver.pop]
  cases h : oracle (st.solver.assertions ++ [Term.notT t]) <;>
    simp [findCounterexample, hassert, hpop, modelDict, h]

/-- C10 (counterexample): a membership test of an untyped variable
against the empty literal list raises a type-inference exception rather
than returning a constant boolean, because the left operand is translated
before the empty list is examined. -/
theorem C10_counterexample :
    translateExpr initTranslator
        (.compare (.name "y" .load) [.inOp] [.listLit []])
      = (.error (.typeInference "Cannot determine type for variable y"),
          initTranslator) := by
  simp [translateExpr, handleMembershipTestingAst, getOrCreateVariable, resolveVarType, initTranslator]

/-- C10 (amended): provided the left operand itself translates
successfully (it is translated first, and its failure propagates), a
membership test against the empty literal list builds no equalities and
yields the constant boolean: `x in []` becomes false and `x not in []`
becomes true, with the state as left by the left operand. -/
theorem C10_empty_list_membership (st st1 : TranslatorState) (x : Expr) (v : Term)
    (h : translateExpr st x = (.ok v, st1)) :
    translateExpr st (.compare x [.inOp] [.listLit []])
        = (.ok (.boolVal false), st1) ∧
    translateExpr st (.compare x [.notInOp] [.listLit []])
        = (.ok (.boolVal true), st1) := by
  constructor <;>
    simp [translateExpr, handleMembershipTestingAst, h, translateExprList]

/-- C10 witness: the membership rules evaluated at the integer literal 1. -/
theorem C10_witness :
    translateExpr initTranslator (.constant (.intL 1))
        = (.ok (.intVal 1), initTranslator) ∧
    translateExpr initTranslator (.compare (.constant (.intL 1)) [.inOp] [.listLit []])
        = (.ok (.boolVal false), initTranslator) := by
  have h : translateExpr initTranslator (.constant (.intL 1))
      = (.ok (.intVal 1), initTranslator) := by
    simp [translateExpr]
  exact ⟨h, (C10_empty_list_membership initTranslator initTranslator _ _ h).1⟩

/-- C9: the step budget bounds the backward walk.  Whenever the recorded
calculation steps have reached the budget and a preceding statement
remains, the loop returns Blocked immediately, carrying the partial
condition and the budget-exceeded reason; the default entry point runs
exactly this loop with a budget of 50 over the reversed preceding
statements. -/
theorem C9_step_budget :
    (∀ (sm : Stmt → Option Nat) (maxSteps : Nat) (stmt : Stmt) (rest : List Stmt)
        (cond : Expr) (loc : Option Nat) (steps : List Step),
        maxSteps ≤ steps.length →
        wpLoop sm maxSteps (stmt :: rest) cond loc steps =
          { result := .blocked, condition := cond, location := sm stmt,
            reason := "Maximum steps (" ++ toString maxSteps ++ ") reached",
            steps := steps }) ∧
    (∀ sm hasF preceding test aloc,
        calculateWeakestPreconditionDefault sm hasF preceding test aloc =
          calculateWeakestPrecondition sm hasF preceding test aloc 50) ∧
    (∀ sm preceding test aloc maxSteps,
        calculateWeakestPrecondition sm true preceding test aloc maxSteps =
          wpLoop sm maxSteps preceding.reverse test aloc []) := by
  refine ⟨?_, ?_, ?_⟩
  · intro sm maxSteps stmt rest cond loc steps h
    simp [wpLoop, h]
  · intro sm hasF preceding test aloc
    rfl
  · intro sm preceding test aloc maxSteps
    simp [calculateWeakestPrecondition]

/-- C9 witness: with a budget of zero and one pass statement pending, the
walk is blocked immediately with the budget reason. -/
theorem C9_step_budget_witness :
    (0 ≤ ([] : List Step).length) ∧
    wpLoop (fun _ => none) 0 [Stmt.passStmt] (.name "q" .load) none [] =
      { result := .blocked, condition := .name "q" .load, location := none,
        reason := "Maximum steps (" ++ toString 0 ++ ") reached", steps := [] } :=
  ⟨Nat.zero_le _,
    C9_step_budget.1 (fun _ => none) 0 Stmt.passStmt [] (.name "q" .load) none []
      (Nat.zero_le _)⟩

/-- Decimal digit characters never render as an underscore. -/
theorem digitChar_ne_underscore (m : Nat) : Nat.digitChar m ≠ '_' := by
  by_cases h : m < 16
  · interval_cases m <;> decide
  · unfold Nat.digitChar
    repeat rw [if_neg (by omega)]
    decide

/-- `Nat.toDigitsCore` at base 10 only prepends digit characters. -/
theorem toDigitsCore_no_underscore (f : Nat) :
    ∀ (n : Nat) (l : List Char), '_' ∉ l → '_' ∉ Nat.toDigitsCore 10 f n l := by
  induction f with
  | zero => intro n l h; simpa [Nat.toDigitsCore] using h
  | succ f ih =>
      intro n l h
      have hd : '_' ∉ (Nat.digitChar (n % 10) :: l) := by
        intro hc
        rcases List.mem_cons.mp hc with hc | hc
        · exact digitChar_ne_underscore _ hc.symm
        · exact h hc
      by_cases hz : n / 10 = 0
      · simpa [Nat.toDigitsCore, hz] using hd
      · simpa [Nat.toDigitsCore, hz] using ih (n / 10) _ hd

/-- The decimal rendering of a natural number contains no underscore. -/
theorem toString_nat_no_underscore (n : Nat) : '_' ∉ (toString n).data := by
  have : (toString n).data = Nat.toDigitsCore 10 (n + 1) n [] := rfl
  rw [this]
  exact toDigitsCore_no_underscore (n + 1) n [] (by simp)

/-- Splitting a character list at an underscore whose right part is
underscore-free is unambiguous. -/
theorem underscore_split :
    ∀ (u1 u2 v1 v2 : List Char), '_' ∉ v1 → '_' ∉ v2 →
      u1 ++ '_' :: v1 = u2 ++ '_' :: v2 → u1 = u2 ∧ v1 = v2 := by
  intro u1
  induction u1 with
  | nil =>
      intro u2 v1 v2 h1 h2 he
      cases u2 with
      | nil => simpa using he
      | cons c u2 =>
          simp only [List.nil_append, List.cons_append, List.cons.injEq] at he
          exact absurd (he.2 ▸ (by simp : '_' ∈ u2 ++ '_' :: v2)) h1
  | cons c u1 ih =>
      intro u2 v1 v2 h1 h2 he
      cases u2 with
      | nil =>
          simp only [List.nil_append, List.cons_append, List.cons.injEq] at he
          exact absurd (he.2.symm ▸ (by simp : '_' ∈ u1 ++ '_' :: v1)) h2
      | cons d u2 =>
          simp only [List.cons_append, List.cons.injEq] at he
          obtain ⟨h12, h22⟩ := ih u2 v1 v2 h1 h2 he.2
          exact ⟨by rw [he.1, h12], h22⟩

/-- Two unique solver-constant names agree only if they were built from
the same Python name. -/
theorem mkUniqueName_pname_eq (p1 p2 : String) (i1 i2 : Nat)
    (h : mkUniqueName p1 i1 = mkUniqueName p2 i2) : p1 = p2 := by
  have hdata : p1.data ++ '_' :: (toString i1).data
      = p2.data ++ '_' :: (toString i2).data := by
    have := congrArg String.data h
    simpa [mkUniqueName, String.data_append] using this
  obtain ⟨hp, hv⟩ := underscore_split p1.data p2.data (toString i1).data
    (toString i2).data (toString_nat_no_underscore i1) (toString_nat_no_underscore i2)
    hdata
  exact String.ext hp

/-- Association-list lookup distributes over append. -/
theorem lookup_append_assoc {α β : Type} [BEq α] (l1 l2 : List (α × β)) (k : α) :
    (l1 ++ l2).lookup k =
      match l1.lookup k with
      | some v => some v
      | none => l2.lookup k := by
  induction l1 with
  | nil => simp [List.lookup]
  | cons p l1 ih =>
      cases p with
      | mk a b =>
          by_cases h : k == a
          · simp [List.lookup, h]
          · simp only [List.cons_append, List.lookup, h]
            exact ih

/-- A symbol-table entry survives any `create` operation. -/
theorem lookup_isSome_applyOp_create (st : TranslatorState) (n : String)
    (t : Option VariableType) (p : String) (h : (st.vars.lookup p).isSome) :
    (((applyOp st (.create n t))).vars.lookup p).isSome := by
  cases hl : st.vars.lookup n with
  | some v => simpa [applyOp, getOrCreateVariable, hl] using h
  | none =>
      by_cases hu : resolveVarType st n t = VariableType.unknown
      · simpa [applyOp, getOrCreateVariable, hl, hu] using h
      · cases hz : mkZ3VarTerm (mkUniqueName n st.varCounter) (resolveVarType st n t) with
        | none => simpa [applyOp, getOrCreateVariable, hl, hu, hz] using h
        | some z3v =>
            simp only [applyOp, getOrCreateVariable, hl, hu, if_false, hz]
            rw [lookup_append_assoc]
            cases hp : st.vars.lookup p with
            | some w => simp
            | none => rw [hp] at h; simp at h

/-- Characterization of a successful fresh allocation: the unique name
carries the current counter, the Python name was absent before, and is
bound afterwards. -/
theorem allocName_create_eq (st : TranslatorState) (n : String)
    (t : Option VariableType) (u : String)
    (h : allocName st (.create n t) = some u) :
    u = mkUniqueName n st.varCounter ∧ st.vars.lookup n = none ∧
      (((applyOp st (.create n t))).vars.lookup n).isSome := by
  simp only [allocName] at h
  cases hl : st.vars.lookup n with
  | some v => rw [hl] at h; simp at h
  | none =>
      rw [hl] at h
      by_cases hu : resolveVarType st n t = VariableType.unknown
      · simp [getOrCreateVariable, hl, hu] at h
      · cases hz : mkZ3VarTerm (mkUniqueName n st.varCounter) (resolveVarType st n t) with
        | none => simp [getOrCreateVariable, hl, hu, hz] at h
        | some z3v =>
            simp only [getOrCreateVariable, hl, hu, if_false, hz] at h
            refine ⟨by simpa using h.symm, rfl, ?_⟩
            simp only [applyOp, getOrCreateVariable, hl, hu, if_false, hz]
            rw [lookup_append_assoc]
            simp [hl, List.lookup]

/-- Every name allocated by a reset-free run has the shape
`pname_counter` for a Python name that was unbound when the run started. -/
theorem namesAllocated_shape (ops : List TransOp) :
    ∀ (st : TranslatorState) (u : String), (∀ op ∈ ops, op ≠ TransOp.resetOp) →
      u ∈ namesAllocated st ops →
      ∃ p i, u = mkUniqueName p i ∧ st.vars.lookup p = none := by
  induction ops with
  | nil => intro st u _ hu; simp [namesAllocated] at hu
  | cons op rest ih =>
      intro st u hrf hu
      cases op with
      | resetOp => exact absurd rfl (hrf _ (by simp))
      | create n t =>
          rw [namesAllocated] at hu
          rcases List.mem_append.mp hu with h | h
          · cases ha : allocName st (.create n t) with
            | none => simp [ha] at h
            | some u0 =>
                simp only [ha, List.mem_singleton] at h
                obtain ⟨he, hnone, _⟩ := allocName_create_eq st n t u0 ha
                exact ⟨n, st.varCounter, h ▸ he, hnone⟩
          · obtain ⟨p, i, hup, hlook⟩ :=
              ih (applyOp st (.create n t)) u
                (fun o ho => hrf o (List.mem_cons_of_mem _ ho)) h
            refine ⟨p, i, hup, ?_⟩
            cases hsp : st.vars.lookup p with
            | none => rfl
            | some v =>
                have := lookup_isSome_applyOp_create st n t p (by simp [hsp])
                rw [hlook] at this
                simp at this

/-- C6 (amended): within a single epoch — any run of operations with no
`reset()` among them, started from any state — the unique names allocated
by `get_or_create_variable` are pairwise distinct.  (Across a reset the
counter restarts at zero, so names can be reallocated, as the
counterexample shows.) -/
theorem C6_unique_names_within_epoch (st : TranslatorState) (ops : List TransOp)
    (hrf : ∀ op ∈ ops, op ≠ TransOp.resetOp) :
    (namesAllocated st ops).Nodup := by
  induction ops generalizing st with
  | nil => simp [namesAllocated]
  | cons op rest ih =>
      cases op with
      | resetOp => exact absurd rfl (hrf _ (by simp))
      | create n t =>
          rw [namesAllocated]
          have hrest : ∀ o ∈ rest, o ≠ TransOp.resetOp :=
            fun o ho => hrf o (List.mem_cons_of_mem _ ho)
          cases ha : allocName st (.create n t) with
          | none => simpa using ih (applyOp st (.create n t)) hrest
          | some u =>
              obtain ⟨he, _, hbound⟩ := allocName_create_eq st n t u ha
              simp only [List.singleton_append, List.nodup_cons]
              refine ⟨?_, ih (applyOp st (.create n t)) hrest⟩
              intro hmem
              obtain ⟨p, i, hup, hlook⟩ :=
                namesAllocated_shape rest (applyOp st (.create n t)) u hrest hmem
              have hpn : n = p := mkUniqueName_pname_eq n p st.varCounter i (he ▸ hup)
              rw [← hpn] at hlook
              rw [hlook] at hbound
              simp at hbound

/-- C6 (counterexample): `reset()` sets the variable counter back to
zero, so the very first allocation after a reset reuses the unique name
of the first allocation before it: both are `x_0`. -/
theorem C6_counterexample :
    allocName initTranslator (.create "x" (some VariableType.int)) = some "x_0" ∧
    allocName (runOps [TransOp.create "x" (some VariableType.int), TransOp.resetOp])
        (.create "x" (some VariableType.int)) = some "x_0" := by
  constructor <;>
    simp [allocName, runOps, applyOp, getOrCreateVariable, resolveVarType,
      initTranslator, resetTranslator, mkUniqueName, mkZ3VarTerm, List.foldl] <;> rfl

/-- C6 witness: a reset-free run of two allocations, with the epoch
uniqueness theorem applied to it. -/
theorem C6_unique_names_witness :
    (∀ op ∈ [TransOp.create "x" (some VariableType.int),
             TransOp.create "y" (some VariableType.int)], op ≠ TransOp.resetOp) ∧
    (namesAllocated initTranslator
      [TransOp.create "x" (some VariableType.int),
       TransOp.create "y" (some VariableType.int)]).Nodup :=
  ⟨by decide,
    C6_unique_names_within_epoch initTranslator
      [TransOp.create "x" (some VariableType.int),
       TransOp.create "y" (some VariableType.int)] (by decide)⟩

/-- Boolean conjunction over an attached list is the plain conjunction. -/
theorem attach_all_eq {α : Type} (l : List α) (f : α → Bool) :
    (l.attach.all fun vh => f vh.1) = l.all f := by
  rw [Bool.eq_iff_iff]
  simp [List.all_eq_true, Subtype.forall]

/-- Boolean disjunction over an attached list is the plain disjunction. -/
theorem attach_any_eq {α : Type} (l : List α) (f : α → Bool) :
    (l.attach.any fun vh => f vh.1) = l.any f := by
  rw [Bool.eq_iff_iff]
  simp [List.any_eq_true, Subtype.exists]

/-- Evaluation of a conjunction node. -/
theorem beval_and (atom : Expr → Bool) (vs : List Expr) :
    beval atom (.boolOp .bAnd vs) = vs.all (beval atom) := by
  rw [beval]
  exact attach_all_eq vs (beval atom)

/-- Evaluation of a disjunction node. -/
theorem beval_or (atom : Expr → Bool) (vs : List Expr) :
    beval atom (.boolOp .bOr vs) = vs.any (beval atom) := by
  rw [beval]
  exact attach_any_eq vs (beval atom)

/-- Evaluation of a negation node. -/
theorem beval_not (atom : Expr → Bool) (e : Expr) :
    beval atom (.unaryOp .uNot e) = !(beval atom e) := by
  rw [beval]

/-- C1 (amended): when both branch computations succeed with conditions
P1 and P2 (P2 being the incoming condition when there is no else), the
condition returned by `_propagate_through_if_statement` is syntactically
`(not test or P1) and (not (not test) or P2)` — the else-implication is
built from the negated test, so its left disjunct carries a double
negation — and this condition is logically equivalent to the claimed
`(not test or P1) and (test or P2)` under the boolean semantics. -/
theorem C1_if_statement_wp :
    (∀ (sm : Stmt → Option Nat) (cond test : Expr) (body orelse : List Stmt)
        (loc : Option Nat) (steps steps1 steps2 : List Step) (r1 r2 : WPRes),
        calcWpGo sm body.reverse cond none steps = (r1, steps1) →
        r1.result = .success →
        orelse ≠ [] →
        calcWpGo sm orelse.reverse cond none steps1 = (r2, steps2) →
        r2.result = .success →
        propagateThroughIfStatement sm cond test body orelse loc steps =
          ({ result := .success,
             condition := createConjunction (createImplication test r1.condition)
               (createImplication (createNegation test) r2.condition),
             location := loc,
             reason := "Successfully calculated WP for if statement",
             steps := steps2 ++ [Step.ifInfo test r1.condition r2.condition] },
           steps2 ++ [Step.ifInfo test r1.condition r2.condition])) ∧
    (∀ (sm : Stmt → Option Nat) (cond test : Expr) (body : List Stmt)
        (loc : Option Nat) (steps steps1 : List Step) (r1 : WPRes),
        calcWpGo sm body.reverse cond none steps = (r1, steps1) →
        r1.result = .success →
        propagateThroughIfStatement sm cond test body [] loc steps =
          ({ result := .success,
             condition := createConjunction (createImplication test r1.condition)
               (createImplication (createNegation test) cond),
             location := loc,
             reason := "Successfully calculated WP for if statement",
             steps := steps1 ++ [Step.ifInfo test r1.condition cond] },
           steps1 ++ [Step.ifInfo test r1.condition cond])) ∧
    (∀ (atom : Expr → Bool) (b p1 p2 : Expr),
        beval atom (createConjunction (createImplication b p1)
            (createImplication (createNegation b) p2)) =
          beval atom (.boolOp .bAnd [.boolOp .bOr [.unaryOp .uNot b, p1],
            .boolOp .bOr [b, p2]])) := by
  refine ⟨?_, ?_, ?_⟩
  · intro sm cond test body orelse loc steps steps1 steps2 r1 r2 hb h1 hne he h2
    have hie : orelse.isEmpty = false := by
      cases orelse with
      | nil => exact absurd rfl hne
      | cons o os => rfl
    simp [propagateThroughIfStatement, hb, h1, hie, he, h2, finishIfStatement]
  · intro sm cond test body loc steps steps1 r1 hb h1
    simp [propagateThroughIfStatement, hb, h1, finishIfStatement]
  · intro atom b p1 p2
    simp [createConjunction, createImplication, createNegation, beval_and,
      beval_or, beval_not]

/-- C1 (counterexample): for `if b: pass` propagated with condition `q`,
both branch computations succeed (P1 = P2 = q), but the returned
condition is not the claimed `(not b or q) and (b or q)` — its second
conjunct carries `not (not b)` instead of `b`. -/
theorem C1_counterexample :
    (calcWpGo (fun _ => none) [Stmt.passStmt].reverse (.name "q" .load) none []).1.result
        = .success ∧
    (propagateThroughIfStatement (fun _ => none) (.name "q" .load) (.name "b" .load)
        [Stmt.passStmt] [] none []).1.result = .success ∧
    (propagateThroughIfStatement (fun _ => none) (.name "q" .load) (.name "b" .load)
        [Stmt.passStmt] [] none []).1.condition =
      Expr.boolOp .bAnd
        [Expr.boolOp .bOr [.unaryOp .uNot (.name "b" .load), .name "q" .load],
         Expr.boolOp .bOr [.unaryOp .uNot (.unaryOp .uNot (.name "b" .load)),
           .name "q" .load]] ∧
    (propagateThroughIfStatement (fun _ => none) (.name "q" .load) (.name "b" .load)
        [Stmt.passStmt] [] none []).1.condition ≠
      Expr.boolOp .bAnd
        [Expr.boolOp .bOr [.unaryOp .uNot (.name "b" .load), .name "q" .load],
         Expr.boolOp .bOr [.name "b" .load, .name "q" .load]] := by
  refine ⟨?_, ?_, ?_, ?_⟩ <;>
    simp [propagateThroughIfStatement, calcWpGo, propagateThroughStatement,
      finishIfStatement, createConjunction, createImplication, createNegation]

/-- C1 witness: the amended description applied to the concrete
`if b: pass` with condition `q`. -/
theorem C1_if_statement_wp_witness :
    calcWpGo (fun _ => none) [Stmt.passStmt].reverse (.name "q" .load) none [] =
      ({ result := .success, condition := .name "q" .load, location := none,
         reason := "Successfully processed statement list", steps := [] }, []) ∧
    propagateThroughIfStatement (fun _ => none) (.name "q" .load) (.name "b" .load)
        [Stmt.passStmt] [] none [] =
      ({ result := .success,
         condition := createConjunction
           (createImplication (.name "b" .load) (.name "q" .load))
           (createImplication (createNegation (.name "b" .load)) (.name "q" .load)),
         location := none,
         reason := "Successfully calculated WP for if statement",
         steps := [Step.ifInfo (.name "b" .load) (.name "q" .load) (.name "q" .load)] },
       [Step.ifInfo (.name "b" .load) (.name "q" .load) (.name "q" .load)]) := by
  have hb : calcWpGo (fun _ => none) [Stmt.passStmt].reverse (.name "q" .load) none [] =
      ({ result := .success, condition := .name "q" .load, location := none,
         reason := "Successfully processed statement list", steps := [] }, []) := by
    simp [calcWpGo, propagateThroughStatement]
  exact ⟨hb, C1_if_statement_wp.2.1 (fun _ => none) (.name "q" .load) (.name "b" .load)
    [Stmt.passStmt] none [] [] _ hb rfl⟩

/-- Expressions containing no lambda node (hence no binder in the
embedded fragment). -/
def lambdaFree : Expr → Bool
  | .constant _ => true
  | .name _ _ => true
  | .attribute v _ => lambdaFree v
  | .binOp l _ r => lambdaFree l && lambdaFree r
  | .unaryOp _ o => lambdaFree o
  | .boolOp _ vs => vs.attach.all fun vh => lambdaFree vh.1
  | .compare l _ cs => lambdaFree l && (cs.attach.all fun vh => lambdaFree vh.1)
  | .call f args kws =>
      lambdaFree f && (args.attach.all fun vh => lambdaFree vh.1)
        && (kws.attach.all fun vh => lambdaFree vh.1)
  | .ifExp t b o => lambdaFree t && lambdaFree b && lambdaFree o
  | .subscript v i => lambdaFree v && lambdaFree i
  | .listLit es => es.attach.all fun vh => lambdaFree vh.1
  | .tupleLit es => es.attach.all fun vh => lambdaFree vh.1
  | .setLit es => es.attach.all fun vh => lambdaFree vh.1
  | .lambda _ _ _ => false
  | .unknownExpr _ => true
termination_by e => sizeOf e
decreasing_by
  all_goals simp_wf
  all_goals first
    | omega
    | (have h := List.sizeOf_lt_of_mem vh.2; omega)

/-- On lambda-free expressions the transformer substitution of the code
agrees with free-occurrence substitution. -/
theorem substCode_eq_substFree (x : String) (e : Expr) (P : Expr)
    (hl : lambdaFree P = true) : substCode x e P = substFree x e P := by
  induction P using substCode.induct x e <;>
    simp_all [substCode, substFree, lambdaFree, attach_all_eq, List.all_eq_true] <;>
    (try exact List.map_congr_left (by intro a ha; simp_all [List.mem_attach]))

/-- C2 (amended): for `x = e` immediately followed by `assert P`, the WP
calculator returns Success with condition `P` in which every `Load`
occurrence of the name `x` — bound occurrences under a lambda included,
since the node transformer does not track binders — is replaced by a copy
of `e`; on binder-free conditions this coincides with the claimed
free-occurrence substitution. -/
theorem C2_assignment_substitution :
    (∀ (sm : Stmt → Option Nat) (x : String) (e P : Expr) (aloc : Option Nat),
        calculateWeakestPreconditionDefault sm true
            [.assign [.name x .store] e] P aloc =
          { result := .success, condition := substCode x e P,
            location := sm (.assign [.name x .store] e),
            reason := "Successfully calculated weakest precondition",
            steps := [Step.pair (.assign [.name x .store] e) (substCode x e P)] }) ∧
    (∀ (x : String) (e P : Expr), lambdaFree P = true →
        substCode x e P = substFree x e P) := by
  constructor
  · intro sm x e P aloc
    simp [calculateWeakestPreconditionDefault, calculateWeakestPrecondition, wpLoop,
      propagateThroughStatement, propagateThroughAssignment]
  · exact fun x e P h => substCode_eq_substFree x e P h

/-- C2 (counterexample): with condition `(lambda x: x)(x)` after the
assignment `x = 5`, the calculator substitutes the bound occurrence of
`x` inside the lambda body as well, so the computed condition
`(lambda x: 5)(5)` differs from the free-occurrence substitution
`(lambda x: x)(5)` demanded by the claim. -/
theorem C2_counterexample :
    (calculateWeakestPreconditionDefault (fun _ => none) true
        [.assign [.name "x" .store] (.constant (.intL 5))]
        (.call (.lambda ["x"] [] (.name "x" .load)) [.name "x" .load] [])
        none).condition
      = .call (.lambda ["x"] [] (.constant (.intL 5))) [.constant (.intL 5)] [] ∧
    substFree "x" (.constant (.intL 5))
        (.call (.lambda ["x"] [] (.name "x" .load)) [.name "x" .load] [])
      = .call (.lambda ["x"] [] (.name "x" .load)) [.constant (.intL 5)] [] ∧
    (calculateWeakestPreconditionDefault (fun _ => none) true
        [.assign [.name "x" .store] (.constant (.intL 5))]
        (.call (.lambda ["x"] [] (.name "x" .load)) [.name "x" .load] [])
        none).condition
      ≠ substFree "x" (.constant (.intL 5))
          (.call (.lambda ["x"] [] (.name "x" .load)) [.name "x" .load] []) := by
  refine ⟨?_, ?_, ?_⟩ <;>
    simp [calculateWeakestPreconditionDefault, calculateWeakestPrecondition, wpLoop,
      propagateThroughStatement, propagateThroughAssignment, substCode, substFree,
      List.attach_cons]

/-- C2 witness: the substitution agreement applied to the binder-free
condition `z`. -/
theorem C2_assignment_substitution_witness :
    lambdaFree (.name "z" .load) = true ∧
    substCode "x" (.constant (.intL 1)) (.name "z" .load)
      = substFree "x" (.constant (.intL 1)) (.name "z" .load) :=
  ⟨by simp [lambdaFree],
    C2_assignment_substitution.2 "x" (.constant (.intL 1)) (.name "z" .load)
      (by simp [lambdaFree])⟩

/-- Descriptions of assertions of different types differ: each type value
string is distinguished by its first two characters and the separator
keeps it a prefix. -/
theorem take2_of_value_desc (t : AssertionType) (s : String) :
    ((t.value ++ ": ") ++ s).data.take 2 = t.value.data.take 2 := by
  cases t <;> rfl

theorem assertionDesc_ne (a b : AInfo) (h : a.atype ≠ b.atype) :
    assertionDesc a ≠ assertionDesc b := by
  intro he
  unfold assertionDesc at he
  have h2 := congrArg (fun u => u.data.take 2) he
  simp only at h2
  rw [take2_of_value_desc, take2_of_value_desc] at h2
  apply h
  cases hA : a.atype <;> rw [hA] at h2 <;> cases hB : b.atype <;> rw [hB] at h2 <;>
    first
      | rfl
      | exact absurd h2 (by decide)

/-- `processPreconditions` only extends the constraint, verified and
error lists, and never touches the failed or counterexample lists. -/
theorem processPreconditions_append (tr : AInfo → Except String Term) (l : List AInfo) :
    ∀ (cs : List Term) (acc : ResultAcc), ∃ ts v e,
      processPreconditions tr l cs acc =
        (cs ++ ts,
         { verified := acc.verified ++ v, failed := acc.failed,
           cexs := acc.cexs, errors := acc.errors ++ e }) := by
  induction l with
  | nil => intro cs acc; exact ⟨[], [], [], by simp [processPreconditions]⟩
  | cons p rest ih =>
      intro cs acc
      cases ht : tr p with
      | ok t =>
          obtain ⟨ts, v, e, hres⟩ := ih (cs ++ [t])
            { acc with verified := acc.verified ++ [assertionDesc p] }
          exact ⟨[t] ++ ts, [assertionDesc p] ++ v, e, by
            simp [processPreconditions, ht, hres]⟩
      | error er =>
          obtain ⟨ts, v, e, hres⟩ := ih cs
            { acc with errors := acc.errors ++ ["Failed to process precondition: " ++ er] }
          exact ⟨ts, v, ["Failed to process precondition: " ++ er] ++ e, by
            simp [processPreconditions, ht, hres]⟩

/-- `processChecked` only extends the four result lists. -/
theorem processChecked_append (tr : AInfo → Except String Term)
    (cx : List Term → Term → CxOutcome) (cs : List Term) (pfx : String)
    (l : List AInfo) :
    ∀ (acc : ResultAcc), ∃ v f c e,
      processChecked tr cx cs pfx l acc =
        { verified := acc.verified ++ v, failed := acc.failed ++ f,
          cexs := acc.cexs ++ c, errors := acc.errors ++ e } := by
  induction l with
  | nil => intro acc; exact ⟨[], [], [], [], by simp [processChecked]⟩
  | cons q rest ih =>
      intro acc
      cases ht : tr q with
      | ok t =>
          cases hcx : cx cs t with
          | ok cex =>
              cases cex with
              | none =>
                  obtain ⟨v, f, c, e, hres⟩ := ih
                    { acc with verified := acc.verified ++ [assertionDesc q] }
                  exact ⟨[assertionDesc q] ++ v, f, c, e, by
                    simp [processChecked, ht, hcx, hres]⟩
              | some m =>
                  by_cases hm : m.isEmpty
                  · obtain ⟨v, f, c, e, hres⟩ := ih
                      { acc with failed := acc.failed ++ [assertionDesc q] }
                    exact ⟨v, [assertionDesc q] ++ f, c, e, by
                      simp [processChecked, ht, hcx, hm, hres]⟩
                  · obtain ⟨v, f, c, e, hres⟩ := ih
                      { verified := acc.verified,
                        failed := acc.failed ++ [assertionDesc q],
                        cexs := acc.cexs ++ [(assertionDesc q, m)],
                        errors := acc.errors }
                    exact ⟨v, [assertionDesc q] ++ f, [(assertionDesc q, m)] ++ c, e, by
                      simp [processChecked, ht, hcx, hm, hres]⟩
          | raised msg =>
              obtain ⟨v, f, c, e, hres⟩ := ih
                { acc with errors := acc.errors ++ [pfx ++ msg] }
              exact ⟨v, f, c, [pfx ++ msg] ++ e, by
                simp [processChecked, ht, hcx, hres]⟩
      | error er =>
          obtain ⟨v, f, c, e, hres⟩ := ih
            { acc with errors := acc.errors ++ [pfx ++ er] }
          exact ⟨v, f, c, [pfx ++ er] ++ e, by
            simp [processChecked, ht, hres]⟩

/-- A precondition whose translation succeeds is reported verified. -/
theorem processPreconditions_verified_mem (tr : AInfo → Except String Term)
    (l : List AInfo) :
    ∀ (cs : List Term) (acc : ResultAcc) (p : AInfo) (t : Term), p ∈ l →
      tr p = .ok t →
      assertionDesc p ∈ ((processPreconditions tr l cs acc).2).verified := by
  induction l with
  | nil => intro cs acc p t hp; simp at hp
  | cons q rest ih =>
      intro cs acc p t hp ht
      rcases List.mem_cons.mp hp with rfl | hp
      · obtain ⟨ts, v, e, hres⟩ := processPreconditions_append tr rest (cs ++ [t])
          { acc with verified := acc.verified ++ [assertionDesc p] }
        simp [processPreconditions, ht, hres]
      · cases htq : tr q with
        | ok tq => rw [processPreconditions, htq]; exact ih _ _ p t hp ht
        | error e => rw [processPreconditions, htq]; exact ih _ _ p t hp ht

/-- A precondition whose translation raises contributes an error entry. -/
theorem processPreconditions_error_mem (tr : AInfo → Except String Term)
    (l : List AInfo) :
    ∀ (cs : List Term) (acc : ResultAcc) (p : AInfo) (e : String), p ∈ l →
      tr p = .error e →
      ("Failed to process precondition: " ++ e)
        ∈ ((processPreconditions tr l cs acc).2).errors := by
  induction l with
  | nil => intro cs acc p e hp; simp at hp
  | cons q rest ih =>
      intro cs acc p e hp ht
      rcases List.mem_cons.mp hp with rfl | hp
      · obtain ⟨ts, v, e2, hres⟩ := processPreconditions_append tr rest cs
          { acc with errors := acc.errors ++ ["Failed to process precondition: " ++ e] }
        simp [processPreconditions, ht, hres]
      · cases htq : tr q with
        | ok tq => rw [processPreconditions, htq]; exact ih _ _ p e hp ht
        | error e2 => rw [processPreconditions, htq]; exact ih _ _ p e hp ht

/-- `processPreconditions` never adds failed entries. -/
theorem processPreconditions_failed_eq (tr : AInfo → Except String Term)
    (l : List AInfo) (cs : List Term) (acc : ResultAcc) :
    ((processPreconditions tr l cs acc).2).failed = acc.failed := by
  obtain ⟨ts, v, e, hres⟩ := processPreconditions_append tr l cs acc
  rw [hres]

/-- Every failed entry of `processChecked` either was already failed or
describes an assertion of the processed list. -/
theorem processChecked_failed_from (tr : AInfo → Except String Term)
    (cx : List Term → Term → CxOutcome) (cs : List Term) (pfx : String)
    (l : List AInfo) :
    ∀ (acc : ResultAcc) (s : String),
      s ∈ (processChecked tr cx cs pfx l acc).failed →
      s ∈ acc.failed ∨ ∃ a, a ∈ l ∧ s = assertionDesc a := by
  induction l with
  | nil => intro acc s hs; simp [processChecked] at hs; exact Or.inl hs
  | cons q rest ih =>
      intro acc s hs
      have step : ∀ acc2 : ResultAcc,
          (∀ x ∈ acc2.failed, x ∈ acc.failed ∨ x = assertionDesc q) →
          s ∈ (processChecked tr cx cs pfx rest acc2).failed →
          s ∈ acc.failed ∨ ∃ a, a ∈ q :: rest ∧ s = assertionDesc a := by
        intro acc2 hacc2 hmem
        rcases ih acc2 s hmem with h | ⟨a, ha, rfl⟩
        · rcases hacc2 s h with h2 | h2
          · exact Or.inl h2
          · exact Or.inr ⟨q, by simp, h2⟩
        · exact Or.inr ⟨a, List.mem_cons_of_mem _ ha, rfl⟩
      cases ht : tr q with
      | ok t =>
          cases hcx : cx cs t with
          | ok cex =>
              cases cex with
              | none =>
                  simp only [processChecked, ht, hcx] at hs
                  exact step _ (by simp +contextual [Or.inl]) hs
              | some m =>
                  by_cases hm : m.isEmpty <;>
                    simp only [processChecked, ht, hcx, hm, if_true, if_false] at hs
                  · exact step _ (by
                      intro x hx
                      rcases List.mem_append.mp hx with h2 | h2
                      · exact Or.inl h2
                      · simp at h2; exact Or.inr h2) hs
                  · exact step _ (by
                      intro x hx
                      rcases List.mem_append.mp hx with h2 | h2
                      · exact Or.inl h2
                      · simp at h2; exact Or.inr h2) hs
          | raised msg =>
              simp only [processChecked, ht, hcx] at hs
              exact step _ (by simp +contextual [Or.inl]) hs
      | error er =>
          simp only [processChecked, ht] at hs
          exact step _ (by simp +contextual [Or.inl]) hs

/-- The constraint set and accumulator after the precondition pass of
`verify_function`. -/
def precondPass (tr : AInfo → Except String Term) (aC : List Term)
    (fn : PyFunction) : List Term × ResultAcc :=
  processPreconditions tr (usedPreconditions fn) aC ⟨[], [], [], []⟩

/-- The accumulator after all three passes of `verify_function`. -/
def finalAcc (tr : AInfo → Except String Term) (cx : List Term → Term → CxOutcome)
    (aC : List Term) (fn : PyFunction) : ResultAcc :=
  let acc2 := processChecked tr cx (precondPass tr aC fn).1
    "SMT verification failed for postcondition: " (usedPostconditions fn)
    (precondPass tr aC fn).2
  if (usedOtherAssertions fn).isEmpty then acc2
  else processChecked tr cx []
    "SMT verification failed for assertion: " (usedOtherAssertions fn) acc2

/-- Unfolding of `verify_function` for a function with assertions. -/
theorem verifyFunction_eq (tr : AInfo → Except String Term)
    (cx : List Term → Term → CxOutcome) (aC : List Term) (fp : String)
    (fn : PyFunction) (h : fn.assertions.isEmpty = false) :
    verifyFunction tr cx aC fp fn =
      { functionName := fn.fname, filePath := fp,
        success := (finalAcc tr cx aC fn).errors.isEmpty
          && (finalAcc tr cx aC fn).failed.isEmpty,
        verifiedAssertions := (finalAcc tr cx aC fn).verified,
        failedAssertions := (finalAcc tr cx aC fn).failed,
        counterexamples := (finalAcc tr cx aC fn).cexs,
        errors := (finalAcc tr cx aC fn).errors } := by
  rcases hpp : processPreconditions tr (usedPreconditions fn) aC ⟨[], [], [], []⟩
    with ⟨cs, acc1⟩
  simp [verifyFunction, finalAcc, precondPass, h, hpp]

/-- Strings already verified stay verified through `processChecked`. -/
theorem processChecked_verified_mono (tr : AInfo → Except String Term)
    (cx : List Term → Term → CxOutcome) (cs : List Term) (pfx : String)
    (l : List AInfo) (acc : ResultAcc) (x : String) (hx : x ∈ acc.verified) :
    x ∈ (processChecked tr cx cs pfx l acc).verified := by
  obtain ⟨v, f, c, e, hres⟩ := processChecked_append tr cx cs pfx l acc
  rw [hres]
  exact List.mem_append_left _ hx

/-- Error entries persist through `processChecked`. -/
theorem processChecked_errors_mono (tr : AInfo → Except String Term)
    (cx : List Term → Term → CxOutcome) (cs : List Term) (pfx : String)
    (l : List AInfo) (acc : ResultAcc) (x : String) (hx : x ∈ acc.errors) :
    x ∈ (processChecked tr cx cs pfx l acc).errors := by
  obtain ⟨v, f, c, e, hres⟩ := processChecked_append tr cx cs pfx l acc
  rw [hres]
  exact List.mem_append_left _ hx

/-- Inherited verified/error membership in the final accumulator. -/
theorem finalAcc_mem_of_precond (tr : AInfo → Except String Term)
    (cx : List Term → Term → CxOutcome) (aC : List Term) (fn : PyFunction) :
    (∀ x ∈ (precondPass tr aC fn).2.verified, x ∈ (finalAcc tr cx aC fn).verified) ∧
    (∀ x ∈ (precondPass tr aC fn).2.errors, x ∈ (finalAcc tr cx aC fn).errors) := by
  constructor <;> intro x hx <;> rw [finalAcc] <;>
    by_cases ho : (usedOtherAssertions fn).isEmpty <;> simp only [ho, if_true, if_false]
  · exact processChecked_verified_mono _ _ _ _ _ _ _ hx
  · exact processChecked_verified_mono _ _ _ _ _ _ _
      (processChecked_verified_mono _ _ _ _ _ _ _ hx)
  · exact processChecked_errors_mono _ _ _ _ _ _ _ hx
  · exact processChecked_errors_mono _ _ _ _ _ _ _
      (processChecked_errors_mono _ _ _ _ _ _ _ hx)

/-- C4 (amended): every assertion placed in the precondition group is
asserted and reported verified unconditionally (or, if its translation
raises, recorded in the error list), and no assertion whose classified
type is Precondition ever appears in failed_assertions.  The claim fails
only for group members of other types, which the recomputed
postcondition/remaining groups check again (see the counterexample). -/
theorem C4_grouped_preconditions :
    (∀ (tr : AInfo → Except String Term) (cx : List Term → Term → CxOutcome)
        (aC : List Term) (fp : String) (fn : PyFunction) (p : AInfo) (t : Term),
        fn.assertions.isEmpty = false → p ∈ usedPreconditions fn → tr p = .ok t →
        assertionDesc p ∈ (verifyFunction tr cx aC fp fn).verifiedAssertions) ∧
    (∀ (tr : AInfo → Except String Term) (cx : List Term → Term → CxOutcome)
        (aC : List Term) (fp : String) (fn : PyFunction) (p : AInfo) (e : String),
        fn.assertions.isEmpty = false → p ∈ usedPreconditions fn → tr p = .error e →
        ("Failed to process precondition: " ++ e)
          ∈ (verifyFunction tr cx aC fp fn).errors) ∧
    (∀ (tr : AInfo → Except String Term) (cx : List Term → Term → CxOutcome)
        (aC : List Term) (fp : String) (fn : PyFunction) (a : AInfo),
        a.atype = .precondition →
        assertionDesc a ∉ (verifyFunction tr cx aC fp fn).failedAssertions) := by
  refine ⟨?_, ?_, ?_⟩
  · intro tr cx aC fp fn p t h hp ht
    rw [verifyFunction_eq tr cx aC fp fn h]
    exact (finalAcc_mem_of_precond tr cx aC fn).1 _
      (processPreconditions_verified_mem tr (usedPreconditions fn) aC _ p t hp ht)
  · intro tr cx aC fp fn p e h hp ht
    rw [verifyFunction_eq tr cx aC fp fn h]
    exact (finalAcc_mem_of_precond tr cx aC fn).2 _
      (processPreconditions_error_mem tr (usedPreconditions fn) aC _ p e hp ht)
  · intro tr cx aC fp fn a ha hmem
    by_cases h : fn.assertions.isEmpty
    · simp [verifyFunction, h] at hmem
    · rw [verifyFunction_eq tr cx aC fp fn (by simpa using h)] at hmem
      simp only [] at hmem
      have hsrc : assertionDesc a ∈ (precondPass tr aC fn).2.failed ∨
          ∃ b, (b ∈ usedPostconditions fn ∨ b ∈ usedOtherAssertions fn) ∧
            assertionDesc a = assertionDesc b := by
        rw [finalAcc] at hmem
        by_cases ho : (usedOtherAssertions fn).isEmpty <;>
          simp only [ho, if_true, if_false] at hmem
        · rcases processChecked_failed_from tr cx _ _ _ _ _ hmem with h2 | ⟨b, hb, he⟩
          · exact Or.inl h2
          · exact Or.inr ⟨b, Or.inl hb, he⟩
        · rcases processChecked_failed_from tr cx _ _ _ _ _ hmem with h2 | ⟨b, hb, he⟩
          · rcases processChecked_failed_from tr cx _ _ _ _ _ h2 with h3 | ⟨b, hb, he⟩
            · exact Or.inl h3
            · exact Or.inr ⟨b, Or.inl hb, he⟩
          · exact Or.inr ⟨b, Or.inr hb, he⟩
      rcases hsrc with h2 | ⟨b, hb, he⟩
      · rw [precondPass, processPreconditions_failed_eq] at h2
        simp at h2
      · have hbt : b.atype ≠ AssertionType.precondition := by
          rcases hb with hb | hb
          · have := List.mem_filter.mp hb
            intro hc
            simp [hc] at this
          · have := List.mem_filter.mp hb
            intro hc
            simp [hc] at this
        exact assertionDesc_ne a b (by rw [ha]; exact fun hc => hbt hc.symm) he

/-- C4 witness: a concrete function whose single start assertion
translates successfully and is reported verified. -/
theorem C4_grouped_preconditions_witness :
    ((⟨"f", 1, [⟨0, 2, .termination, "x > 0"⟩]⟩ : PyFunction).assertions.isEmpty
        = false) ∧
    (⟨0, 2, .termination, "x > 0"⟩ : AInfo)
        ∈ usedPreconditions ⟨"f", 1, [⟨0, 2, .termination, "x > 0"⟩]⟩ ∧
    assertionDesc ⟨0, 2, .termination, "x > 0"⟩
      ∈ (verifyFunction (fun _ => .ok (Term.var "x_0"))
          (fun cs _ => if cs.isEmpty then .ok (some [("x", 0)]) else .ok none)
          [] "f.py" ⟨"f", 1, [⟨0, 2, .termination, "x > 0"⟩]⟩).verifiedAssertions := by
  have h1 : ((⟨"f", 1, [⟨0, 2, .termination, "x > 0"⟩]⟩ : PyFunction).assertions.isEmpty
      = false) := rfl
  have h2 : (⟨0, 2, .termination, "x > 0"⟩ : AInfo)
      ∈ usedPreconditions ⟨"f", 1, [⟨0, 2, .termination, "x > 0"⟩]⟩ := by
    simp [usedPreconditions, classifyAndGroupAssertions, sortByLine,
      List.mergeSort_singleton, consecutiveStartGo, classifyRemaining]
  exact ⟨h1, h2, C4_grouped_preconditions.1 _ _ [] "f.py" _ _ (Term.var "x_0") h1 h2 rfl⟩

/-- C4 (counterexample): the same grouped start assertion — classified
Termination, hence also a member of the recomputed remaining group — is
asserted as a precondition assumption, reported verified, and then,
after the solver reset, counterexample-checked and recorded in
failed_assertions: a precondition-group member appears in the failed
list. -/
theorem C4_counterexample :
    (⟨0, 2, .termination, "x > 0"⟩ : AInfo)
        ∈ usedPreconditions ⟨"f", 1, [⟨0, 2, .termination, "x > 0"⟩]⟩ ∧
    assertionDesc ⟨0, 2, .termination, "x > 0"⟩
      ∈ (verifyFunction (fun _ => .ok (Term.var "x_0"))
          (fun cs _ => if cs.isEmpty then .ok (some [("x", 0)]) else .ok none)
          [] "f.py" ⟨"f", 1, [⟨0, 2, .termination, "x > 0"⟩]⟩).failedAssertions := by
  constructor
  · simp [usedPreconditions, classifyAndGroupAssertions, sortByLine,
      List.mergeSort_singleton, consecutiveStartGo, classifyRemaining]
  · simp [verifyFunction, usedPreconditions, usedPostconditions, usedOtherAssertions,
      classifyAndGroupAssertions, sortByLine, List.mergeSort_singleton,
      consecutiveStartGo, classifyRemaining, processPreconditions, processChecked,
      assertionDesc, AssertionType.value]

/-- The consecutive-start run is an initial segment: re-appending the
dropped remainder recovers the sorted list. -/
theorem consecutiveStartGo_append_drop (s : Nat) :
    ∀ (l : List AInfo) (ll : Option Nat),
      consecutiveStartGo s ll l ++ l.drop (consecutiveStartGo s ll l).length = l := by
  intro l
  induction l with
  | nil => intro ll; simp [consecutiveStartGo]
  | cons a rest ih =>
      intro ll
      simp only [consecutiveStartGo]
      split
      · simp only [List.length_cons, List.drop_succ_cons, List.cons_append]
        rw [ih (some a.line)]
      · simp

/-- Elements of the postcondition component of `classifyRemaining` come
from the initial component or carry the Postcondition type. -/
theorem classifyRemaining_post_types :
    ∀ (rem pre post others : List AInfo) (x : AInfo),
      x ∈ (classifyRemaining pre post others rem).2.1 →
      x ∈ post ∨ x.atype = .postcondition := by
  intro rem
  induction rem with
  | nil => intro pre post others x hx; simp [classifyRemaining] at hx; exact Or.inl hx
  | cons a rest ih =>
      intro pre post others x hx
      rw [classifyRemaining] at hx
      split at hx
      · rcases ih _ _ _ _ hx with h | h
        · rcases List.mem_append.mp h with h | h
          · exact Or.inl h
          · simp at h; subst h; right; assumption
        · exact Or.inr h
      · split at hx
        · split at hx
          · exact ih _ _ _ _ hx
          · exact ih _ _ _ _ hx
        · split at hx
          · exact ih _ _ _ _ hx
          · exact ih _ _ _ _ hx

/-- Elements of the remaining component of `classifyRemaining` come from
the initial component or have a type that is neither Pre nor
Postcondition. -/
theorem classifyRemaining_other_types :
    ∀ (rem pre post others : List AInfo) (x : AInfo),
      x ∈ (classifyRemaining pre post others rem).2.2 →
      x ∈ others ∨ (x.atype ≠ .precondition ∧ x.atype ≠ .postcondition) := by
  intro rem
  induction rem with
  | nil => intro pre post others x hx; simp [classifyRemaining] at hx; exact Or.inl hx
  | cons a rest ih =>
      intro pre post others x hx
      rw [classifyRemaining] at hx
      split at hx
      · exact ih _ _ _ _ hx
      · split at hx
        · split at hx
          · exact ih _ _ _ _ hx
          · exact ih _ _ _ _ hx
        · split at hx
          · exact ih _ _ _ _ hx
          · rcases ih _ _ _ _ hx with h | h
            · rcases List.mem_append.mp h with h | h
              · exact Or.inl h
              · simp at h; subst h; right; constructor <;> assumption
            · exact Or.inr h

/-- On a duplicate-free input, `classifyRemaining` partitions the initial
groups and the remaining assertions. -/
theorem classifyRemaining_perm :
    ∀ (rem pre post others : List AInfo),
      (pre ++ post ++ others ++ rem).Nodup →
      ((classifyRemaining pre post others rem).1 ++
        (classifyRemaining pre post others rem).2.1 ++
        (classifyRemaining pre post others rem).2.2).Perm
        (pre ++ post ++ others ++ rem) := by
  intro rem
  induction rem with
  | nil =>
      intro pre post others _
      simp [classifyRemaining]
  | cons a rest ih =>
      intro pre post others hnd
      have hshuffle1 : (pre ++ (post ++ [a]) ++ others ++ rest).Perm
          (pre ++ post ++ others ++ a :: rest) := by
        simp only [List.append_assoc, List.singleton_append]
        exact (((List.perm_middle).symm).append_left post).append_left pre
      have hshuffle2 : ((pre ++ [a]) ++ post ++ others ++ rest).Perm
          (pre ++ post ++ others ++ a :: rest) := by
        simp only [List.append_assoc, List.singleton_append]
        refine List.Perm.append_left pre ?_
        exact (List.perm_middle.symm).trans
          (List.Perm.append_left post List.perm_middle.symm)
      have hshuffle3 : (pre ++ post ++ (others ++ [a]) ++ rest).Perm
          (pre ++ post ++ others ++ a :: rest) := by
        simp [List.append_assoc]
      have hanotpre : a ∉ pre := by
        intro hmem
        rw [List.append_assoc, List.append_assoc, List.nodup_append] at hnd
        exact hnd.2.2 hmem (by simp)
      rw [classifyRemaining, if_neg hanotpre, if_neg hanotpre]
      split
      · exact (ih pre (post ++ [a]) others
          ((hshuffle1.nodup_iff).mpr hnd)).trans hshuffle1
      · split
        · exact (ih (pre ++ [a]) post others
            ((hshuffle2.nodup_iff).mpr hnd)).trans hshuffle2
        · exact (ih pre post (others ++ [a])
            ((hshuffle3.nodup_iff).mpr hnd)).trans hshuffle3

/-- C5 (amended): `_classify_and_group_assertions` itself partitions the
duplicate-free discovered assertions into the three groups it returns;
but `verify_function` discards the returned postcondition and remaining
groups and recomputes them from all assertions by type, so the groups it
actually uses only cover the assertions and can overlap the precondition
group (see the counterexample). -/
theorem C5_assertion_partition :
    (∀ (assertions : List AInfo) (startLine : Nat), assertions.Nodup →
        ((classifyAndGroupAssertions assertions startLine).1 ++
          (classifyAndGroupAssertions assertions startLine).2.1 ++
          (classifyAndGroupAssertions assertions startLine).2.2).Perm assertions) ∧
    (∀ (fn : PyFunction), fn.assertions.Nodup → ∀ a ∈ fn.assertions,
        a ∈ usedPreconditions fn ∨ a ∈ usedPostconditions fn ∨
          a ∈ usedOtherAssertions fn) := by
  have hmain : ∀ (assertions : List AInfo) (startLine : Nat), assertions.Nodup →
      ((classifyAndGroupAssertions assertions startLine).1 ++
        (classifyAndGroupAssertions assertions startLine).2.1 ++
        (classifyAndGroupAssertions assertions startLine).2.2).Perm assertions := by
    intro assertions startLine hnd
    have hsortperm : (sortByLine assertions).Perm assertions := by
      simpa [sortByLine] using
        List.mergeSort_perm assertions (fun a b => decide (a.line ≤ b.line))
    have hsplit : consecutiveStartGo startLine none (sortByLine assertions) ++
        (sortByLine assertions).drop
          (consecutiveStartGo startLine none (sortByLine assertions)).length
        = sortByLine assertions :=
      consecutiveStartGo_append_drop startLine (sortByLine assertions) none
    have hnds : (consecutiveStartGo startLine none (sortByLine assertions) ++
        ([] ++ ([] ++ (sortByLine assertions).drop
          (consecutiveStartGo startLine none (sortByLine assertions)).length))).Nodup := by
      simp only [List.nil_append]
      rw [hsplit]
      exact (hsortperm.nodup_iff).mpr hnd
    have hperm := classifyRemaining_perm
      ((sortByLine assertions).drop
        (consecutiveStartGo startLine none (sortByLine assertions)).length)
      (consecutiveStartGo startLine none (sortByLine assertions)) [] []
      (by simpa using hnds)
    rw [classifyAndGroupAssertions]
    refine hperm.trans ?_
    simp only [List.append_nil, List.nil_append]
    rw [hsplit]
    exact hsortperm
  refine ⟨hmain, ?_⟩
  intro fn hnd a ha
  by_cases hpost : a.atype = AssertionType.postcondition
  · exact Or.inr (Or.inl (by simp [usedPostconditions, List.mem_filter, ha, hpost]))
  · by_cases hpre : a.atype = AssertionType.precondition
    · left
      have hperm := hmain fn.assertions fn.startLine hnd
      have hmem : a ∈ (classifyAndGroupAssertions fn.assertions fn.startLine).1 ++
          (classifyAndGroupAssertions fn.assertions fn.startLine).2.1 ++
          (classifyAndGroupAssertions fn.assertions fn.startLine).2.2 :=
        (hperm.mem_iff).mpr ha
      rcases List.mem_append.mp hmem with h | h
      · rcases List.mem_append.mp h with h | h
        · exact h
        · rcases classifyRemaining_post_types _ _ _ _ _ h with h2 | h2
          · simp at h2
          · exact absurd h2 (by rw [hpre]; simp)
      · rcases classifyRemaining_other_types _ _ _ _ _ h with h2 | h2
        · simp at h2
        · exact absurd hpre h2.1
    · exact Or.inr (Or.inr (by
        simp [usedOtherAssertions, List.mem_filter, ha, hpre, hpost]))

/-- C5 (counterexample): a single start assertion of type Termination is
a member of both the precondition group and the recomputed remaining
group used by `verify_function` — the used groups are not a partition —
and in a concrete run its description is reported both verified (as an
assumed precondition) and failed (as a re-checked remaining assertion). -/
theorem C5_counterexample :
    (⟨0, 2, .termination, "x > 0"⟩ : AInfo)
        ∈ usedPreconditions ⟨"f", 1, [⟨0, 2, .termination, "x > 0"⟩]⟩ ∧
    (⟨0, 2, .termination, "x > 0"⟩ : AInfo)
        ∈ usedOtherAssertions ⟨"f", 1, [⟨0, 2, .termination, "x > 0"⟩]⟩ ∧
    assertionDesc ⟨0, 2, .termination, "x > 0"⟩
      ∈ (verifyFunction (fun _ => .ok (Term.var "x_0"))
          (fun cs _ => if cs.isEmpty then .ok (some [("x", 0)]) else .ok none)
          [] "f.py" ⟨"f", 1, [⟨0, 2, .termination, "x > 0"⟩]⟩).verifiedAssertions := by
  refine ⟨?_, ?_, ?_⟩
  · simp [usedPreconditions, classifyAndGroupAssertions, sortByLine,
      List.mergeSort_singleton, consecutiveStartGo, classifyRemaining]
  · simp [usedOtherAssertions]
  · simp [verifyFunction, usedPreconditions, usedPostconditions, usedOtherAssertions,
      classifyAndGroupAssertions, sortByLine, List.mergeSort_singleton,
      consecutiveStartGo, classifyRemaining, processPreconditions, processChecked]

/-- C5 witness: the partition property of the classifier applied to a
concrete singleton assertion list. -/
theorem C5_assertion_partition_witness :
    ([⟨0, 2, AssertionType.termination, "x > 0"⟩] : List AInfo).Nodup ∧
    ((classifyAndGroupAssertions [⟨0, 2, AssertionType.termination, "x > 0"⟩] 1).1 ++
      (classifyAndGroupAssertions [⟨0, 2, AssertionType.termination, "x > 0"⟩] 1).2.1 ++
      (classifyAndGroupAssertions [⟨0, 2, AssertionType.termination, "x > 0"⟩] 1).2.2).Perm
      [⟨0, 2, AssertionType.termination, "x > 0"⟩] :=
  ⟨by decide, C5_assertion_partition.1 [⟨0, 2, AssertionType.termination, "x > 0"⟩] 1
    (by decide)⟩

/-- Failed entries persist through `processChecked`. -/
theorem processChecked_failed_mono (tr : AInfo → Except String Term)
    (cx : List Term → Term → CxOutcome) (cs : List Term) (pfx : String)
    (l : List AInfo) (acc : ResultAcc) (x : String) (hx : x ∈ acc.failed) :
    x ∈ (processChecked tr cx cs pfx l acc).failed := by
  obtain ⟨v, f, c, e, hres⟩ := processChecked_append tr cx cs pfx l acc
  rw [hres]
  exact List.mem_append_left _ hx

/-- Processing one more assertion only extends the accumulator lists. -/
theorem processChecked_cons_eq (tr : AInfo → Except String Term)
    (cx : List Term → Term → CxOutcome) (cs : List Term) (pfx : String)
    (q : AInfo) (rest : List AInfo) (acc : ResultAcc) :
    ∃ acc2, processChecked tr cx cs pfx (q :: rest) acc
        = processChecked tr cx cs pfx rest acc2 ∧
      (∃ v, acc2.verified = acc.verified ++ v) ∧
      (∃ f, acc2.failed = acc.failed ++ f) ∧
      (∃ e, acc2.errors = acc.errors ++ e) := by
  cases ht : tr q with
  | ok t =>
      cases hcx : cx cs t with
      | ok cex =>
          cases cex with
          | none =>
              refine ⟨{ acc with verified := acc.verified ++ [assertionDesc q] },
                ?_, ⟨[assertionDesc q], rfl⟩, ⟨[], by simp⟩, ⟨[], by simp⟩⟩
              simp [processChecked, ht, hcx]
          | some m =>
              by_cases hm : m.isEmpty
              · refine ⟨{ acc with failed := acc.failed ++ [assertionDesc q] },
                  ?_, ⟨[], by simp⟩, ⟨[assertionDesc q], rfl⟩, ⟨[], by simp⟩⟩
                simp [processChecked, ht, hcx, hm]
              · refine ⟨{ verified := acc.verified
                          failed := acc.failed ++ [assertionDesc q]
                          cexs := acc.cexs ++ [(assertionDesc q, m)]
                          errors := acc.errors },
                  ?_, ⟨[], by simp⟩, ⟨[assertionDesc q], rfl⟩, ⟨[], by simp⟩⟩
                simp [processChecked, ht, hcx, hm]
      | raised msg =>
          refine ⟨{ acc with errors := acc.errors ++ [pfx ++ msg] },
            ?_, ⟨[], by simp⟩, ⟨[], by simp⟩, ⟨[pfx ++ msg], rfl⟩⟩
          simp [processChecked, ht, hcx]
  | error er =>
      refine ⟨{ acc with errors := acc.errors ++ [pfx ++ er] },
        ?_, ⟨[], by simp⟩, ⟨[], by simp⟩, ⟨[pfx ++ er], rfl⟩⟩
      simp [processChecked, ht]

/-- A checked assertion whose counterexample search comes back clean is
reported verified. -/
theorem processChecked_verified_mem (tr : AInfo → Except String Term)
    (cx : List Term → Term → CxOutcome) (cs : List Term) (pfx : String)
    (l : List AInfo) :
    ∀ (acc : ResultAcc) (q : AInfo) (t : Term), q ∈ l → tr q = .ok t →
      cx cs t = .ok none →
      assertionDesc q ∈ (processChecked tr cx cs pfx l acc).verified := by
  induction l with
  | nil => intro acc q t hq; simp at hq
  | cons p rest ih =>
      intro acc q t hq ht hcx
      rcases List.mem_cons.mp hq with rfl | hq
      · simp only [processChecked, ht, hcx]
        exact processChecked_verified_mono tr cx cs pfx rest _ _ (by simp)
      · obtain ⟨acc2, heq, _⟩ := processChecked_cons_eq tr cx cs pfx p rest acc
        rw [heq]
        exact ih acc2 q t hq ht hcx

/-- A checked assertion with a counterexample is reported failed. -/
theorem processChecked_failed_mem (tr : AInfo → Except String Term)
    (cx : List Term → Term → CxOutcome) (cs : List Term) (pfx : String)
    (l : List AInfo) :
    ∀ (acc : ResultAcc) (q : AInfo) (t : Term) (m : List (String × Int)), q ∈ l →
      tr q = .ok t → cx cs t = .ok (some m) →
      assertionDesc q ∈ (processChecked tr cx cs pfx l acc).failed := by
  induction l with
  | nil => intro acc q t m hq; simp at hq
  | cons p rest ih =>
      intro acc q t m hq ht hcx
      rcases List.mem_cons.mp hq with rfl | hq
      · by_cases hm : m.isEmpty <;> simp only [processChecked, ht, hcx, hm,
          if_true, if_false, Bool.false_eq_true, reduceIte] <;>
          exact processChecked_failed_mono tr cx cs pfx rest _ _ (by simp)
      · obtain ⟨acc2, heq, _⟩ := processChecked_cons_eq tr cx cs pfx p rest acc
        rw [heq]
        exact ih acc2 q t m hq ht hcx

/-- A checked assertion whose counterexample search raises contributes an
error entry with the pass prefix. -/
theorem processChecked_error_raised_mem (tr : AInfo → Except String Term)
    (cx : List Term → Term → CxOutcome) (cs : List Term) (pfx : String)
    (l : List AInfo) :
    ∀ (acc : ResultAcc) (q : AInfo) (t : Term) (msg : String), q ∈ l →
      tr q = .ok t → cx cs t = .raised msg →
      (pfx ++ msg) ∈ (processChecked tr cx cs pfx l acc).errors := by
  induction l with
  | nil => intro acc q t msg hq; simp at hq
  | cons p rest ih =>
      intro acc q t msg hq ht hcx
      rcases List.mem_cons.mp hq with rfl | hq
      · simp only [processChecked, ht, hcx]
        exact processChecked_errors_mono tr cx cs pfx rest _ _ (by simp)
      · obtain ⟨acc2, heq, _⟩ := processChecked_cons_eq tr cx cs pfx p rest acc
        rw [heq]
        exact ih acc2 q t msg hq ht hcx

/-- A checked assertion whose translation raises contributes an error
entry with the pass prefix. -/
theorem processChecked_error_translate_mem (tr : AInfo → Except String Term)
    (cx : List Term → Term → CxOutcome) (cs : List Term) (pfx : String)
    (l : List AInfo) :
    ∀ (acc : ResultAcc) (q : AInfo) (e : String), q ∈ l → tr q = .error e →
      (pfx ++ e) ∈ (processChecked tr cx cs pfx l acc).errors := by
  induction l with
  | nil => intro acc q e hq; simp at hq
  | cons p rest ih =>
      intro acc q e hq ht
      rcases List.mem_cons.mp hq with rfl | hq
      · simp only [processChecked, ht]
        exact processChecked_errors_mono tr cx cs pfx rest _ _ (by simp)
      · obtain ⟨acc2, heq, _⟩ := processChecked_cons_eq tr cx cs pfx p rest acc
        rw [heq]
        exact ih acc2 q e hq ht

/-- Membership in the postcondition pass persists to the final
accumulator. -/
theorem finalAcc_mem_of_postpass (tr : AInfo → Except String Term)
    (cx : List Term → Term → CxOutcome) (aC : List Term) (fn : PyFunction) :
    (∀ x ∈ (processChecked tr cx (precondPass tr aC fn).1
        "SMT verification failed for postcondition: " (usedPostconditions fn)
        (precondPass tr aC fn).2).verified, x ∈ (finalAcc tr cx aC fn).verified) ∧
    (∀ x ∈ (processChecked tr cx (precondPass tr aC fn).1
        "SMT verification failed for postcondition: " (usedPostconditions fn)
        (precondPass tr aC fn).2).failed, x ∈ (finalAcc tr cx aC fn).failed) ∧
    (∀ x ∈ (processChecked tr cx (precondPass tr aC fn).1
        "SMT verification failed for postcondition: " (usedPostconditions fn)
        (precondPass tr aC fn).2).errors, x ∈ (finalAcc tr cx aC fn).errors) := by
  refine ⟨?_, ?_, ?_⟩ <;> intro x hx <;> rw [finalAcc] <;>
    by_cases ho : (usedOtherAssertions fn).isEmpty <;>
    simp only [ho, if_true, if_false]
  · exact hx
  · exact processChecked_verified_mono _ _ _ _ _ _ _ hx
  · exact hx
  · exact processChecked_failed_mono _ _ _ _ _ _ _ hx
  · exact hx
  · exact processChecked_errors_mono _ _ _ _ _ _ _ hx

/-- A list with a member is not empty. -/
theorem mem_isEmpty_false {α : Type} {l : List α} {a : α} (h : a ∈ l) :
    l.isEmpty = false := by
  cases l
  · simp at h
  · rfl

/-- When the remaining-assertion group is non-empty, the final accumulator
is the step-7 pass (run after the solver reset, so under no constraints)
over the accumulator of the first two passes. -/
theorem finalAcc_others_eq (tr : AInfo → Except String Term)
    (cx : List Term → Term → CxOutcome) (aC : List Term) (fn : PyFunction)
    (ho : (usedOtherAssertions fn).isEmpty = false) :
    finalAcc tr cx aC fn = processChecked tr cx []
      "SMT verification failed for assertion: " (usedOtherAssertions fn)
      (processChecked tr cx (precondPass tr aC fn).1
        "SMT verification failed for postcondition: " (usedPostconditions fn)
        (precondPass tr aC fn).2) := by
  rw [finalAcc]
  simp [ho]

/-- C8: exceptions are contained, in every pass of `verify_function`.  A
translation or counterexample-search exception for one assertion —
whether it is processed in the precondition pass, the postcondition pass,
or the remaining-assertion pass run after the solver reset — is recorded
as a message string with that pass's prefix in the function result's own
error list; sibling assertions of the same function are still processed
and reported (verified on a clean check, failed on a counterexample,
asserted preconditions verified unconditionally); and `verify_source`
produces one `VerificationResult` per function regardless of the outcomes
of the others. -/
theorem C8_exception_containment :
    (∀ (tr : AInfo → Except String Term) (cx : List Term → Term → CxOutcome)
        (aC : PyFunction → List Term) (fp : String) (funcs : List PyFunction),
        (verifySource tr cx aC fp funcs).length = funcs.length ∧
        ∀ (i : Nat) (h : i < funcs.length),
          (verifySource tr cx aC fp funcs).get
              ⟨i, by simpa [verifySource] using h⟩ =
            verifyFunction tr cx (aC (funcs.get ⟨i, h⟩)) fp (funcs.get ⟨i, h⟩)) ∧
    (∀ (tr : AInfo → Except String Term) (cx : List Term → Term → CxOutcome)
        (aC : List Term) (fp : String) (fn : PyFunction) (q : AInfo) (e : String),
        fn.assertions.isEmpty = false → q ∈ usedPreconditions fn →
        tr q = .error e →
        ("Failed to process precondition: " ++ e)
          ∈ (verifyFunction tr cx aC fp fn).errors) ∧
    (∀ (tr : AInfo → Except String Term) (cx : List Term → Term → CxOutcome)
        (aC : List Term) (fp : String) (fn : PyFunction) (q : AInfo) (t : Term),
        fn.assertions.isEmpty = false → q ∈ usedPreconditions fn →
        tr q = .ok t →
        assertionDesc q ∈ (verifyFunction tr cx aC fp fn).verifiedAssertions) ∧
    (∀ (tr : AInfo → Except String Term) (cx : List Term → Term → CxOutcome)
        (aC : List Term) (fp : String) (fn : PyFunction) (q : AInfo) (e : String),
        fn.assertions.isEmpty = false → q ∈ usedPostconditions fn →
        tr q = .error e →
        ("SMT verification failed for postcondition: " ++ e)
          ∈ (verifyFunction tr cx aC fp fn).errors) ∧
    (∀ (tr : AInfo → Except String Term) (cx : List Term → Term → CxOutcome)
        (aC : List Term) (fp : String) (fn : PyFunction) (q : AInfo) (t : Term)
        (msg : String),
        fn.assertions.isEmpty = false → q ∈ usedPostconditions fn →
        tr q = .ok t → cx (precondPass tr aC fn).1 t = .raised msg →
        ("SMT verification failed for postcondition: " ++ msg)
          ∈ (verifyFunction tr cx aC fp fn).errors) ∧
    (∀ (tr : AInfo → Except String Term) (cx : List Term → Term → CxOutcome)
        (aC : List Term) (fp : String) (fn : PyFunction) (q : AInfo) (t : Term),
        fn.assertions.isEmpty = false → q ∈ usedPostconditions fn →
        tr q = .ok t → cx (precondPass tr aC fn).1 t = .ok none →
        assertionDesc q ∈ (verifyFunction tr cx aC fp fn).verifiedAssertions) ∧
    (∀ (tr : AInfo → Except String Term) (cx : List Term → Term → CxOutcome)
        (aC : List Term) (fp : String) (fn : PyFunction) (q : AInfo) (t : Term)
        (m : List (String × Int)),
        fn.assertions.isEmpty = false → q ∈ usedPostconditions fn →
        tr q = .ok t → cx (precondPass tr aC fn).1 t = .ok (some m) →
        assertionDesc q ∈ (verifyFunction tr cx aC fp fn).failedAssertions) ∧
    (∀ (tr : AInfo → Except String Term) (cx : List Term → Term → CxOutcome)
        (aC : List Term) (fp : String) (fn : PyFunction) (q : AInfo) (e : String),
        fn.assertions.isEmpty = false → q ∈ usedOtherAssertions fn →
        tr q = .error e →
        ("SMT verification failed for assertion: " ++ e)
          ∈ (verifyFunction tr cx aC fp fn).errors) ∧
    (∀ (tr : AInfo → Except String Term) (cx : List Term → Term → CxOutcome)
        (aC : List Term) (fp : String) (fn : PyFunction) (q : AInfo) (t : Term)
        (msg : String),
        fn.assertions.isEmpty = false → q ∈ usedOtherAssertions fn →
        tr q = .ok t → cx [] t = .raised msg →
        ("SMT verification failed for assertion: " ++ msg)
          ∈ (verifyFunction tr cx aC fp fn).errors) ∧
    (∀ (tr : AInfo → Except String Term) (cx : List Term → Term → CxOutcome)
        (aC : List Term) (fp : String) (fn : PyFunction) (q : AInfo) (t : Term),
        fn.assertions.isEmpty = false → q ∈ usedOtherAssertions fn →
        tr q = .ok t → cx [] t = .ok none →
        assertionDesc q ∈ (verifyFunction tr cx aC fp fn).verifiedAssertions) ∧
    (∀ (tr : AInfo → Except String Term) (cx : List Term → Term → CxOutcome)
        (aC : List Term) (fp : String) (fn : PyFunction) (q : AInfo) (t : Term)
        (m : List (String × Int)),
        fn.assertions.isEmpty = false → q ∈ usedOtherAssertions fn →
        tr q = .ok t → cx [] t = .ok (some m) →
        assertionDesc q ∈ (verifyFunction tr cx aC fp fn).failedAssertions) := by
  refine ⟨?_, ?_, ?_, ?_, ?_, ?_, ?_, ?_, ?_, ?_, ?_⟩
  · intro tr cx aC fp funcs
    constructor
    · simp [verifySource]
    · intro i h
      simp [verifySource]
  · intro tr cx aC fp fn q e h hq ht
    rw [verifyFunction_eq tr cx aC fp fn h]
    exact (finalAcc_mem_of_precond tr cx aC fn).2 _
      (processPreconditions_error_mem tr (usedPreconditions fn) aC
        ⟨[], [], [], []⟩ q e hq ht)
  · intro tr cx aC fp fn q t h hq ht
    rw [verifyFunction_eq tr cx aC fp fn h]
    exact (finalAcc_mem_of_precond tr cx aC fn).1 _
      (processPreconditions_verified_mem tr (usedPreconditions fn) aC
        ⟨[], [], [], []⟩ q t hq ht)
  · intro tr cx aC fp fn q e h hq ht
    rw [verifyFunction_eq tr cx aC fp fn h]
    exact (finalAcc_mem_of_postpass tr cx aC fn).2.2 _
      (processChecked_error_translate_mem tr cx _ _ _ _ q e hq ht)
  · intro tr cx aC fp fn q t msg h hq ht hcx
    rw [verifyFunction_eq tr cx aC fp fn h]
    exact (finalAcc_mem_of_postpass tr cx aC fn).2.2 _
      (processChecked_error_raised_mem tr cx _ _ _ _ q t msg hq ht hcx)
  · intro tr cx aC fp fn q t h hq ht hcx
    rw [verifyFunction_eq tr cx aC fp fn h]
    exact (finalAcc_mem_of_postpass tr cx aC fn).1 _
      (processChecked_verified_mem tr cx _ _ _ _ q t hq ht hcx)
  · intro tr cx aC fp fn q t m h hq ht hcx
    rw [verifyFunction_eq tr cx aC fp fn h]
    exact (finalAcc_mem_of_postpass tr cx aC fn).2.1 _
      (processChecked_failed_mem tr cx _ _ _ _ q t m hq ht hcx)
  · intro tr cx aC fp fn q e h hq ht
    rw [verifyFunction_eq tr cx aC fp fn h,
      finalAcc_others_eq tr cx aC fn (mem_isEmpty_false hq)]
    exact processChecked_error_translate_mem tr cx _ _ _ _ q e hq ht
  · intro tr cx aC fp fn q t msg h hq ht hcx
    rw [verifyFunction_eq tr cx aC fp fn h,
      finalAcc_others_eq tr cx aC fn (mem_isEmpty_false hq)]
    exact processChecked_error_raised_mem tr cx _ _ _ _ q t msg hq ht hcx
  · intro tr cx aC fp fn q t h hq ht hcx
    rw [verifyFunction_eq tr cx aC fp fn h,
      finalAcc_others_eq tr cx aC fn (mem_isEmpty_false hq)]
    exact processChecked_verified_mem tr cx _ _ _ _ q t hq ht hcx
  · intro tr cx aC fp fn q t m h hq ht hcx
    rw [verifyFunction_eq tr cx aC fp fn h,
      finalAcc_others_eq tr cx aC fn (mem_isEmpty_false hq)]
    exact processChecked_failed_mem tr cx _ _ _ _ q t m hq ht hcx

/-- C8 witness: a function with one postcondition whose translation
succeeds and whose counterexample search is clean is reported verified,
and likewise a function whose only assertion is termination-typed (so it
is checked in the remaining-assertion pass after the reset). -/
theorem C8_exception_containment_witness :
    ((⟨"g", 1, [⟨0, 20, .postcondition, "r > 0"⟩]⟩ : PyFunction).assertions.isEmpty
        = false) ∧
    (⟨0, 20, .postcondition, "r > 0"⟩ : AInfo)
        ∈ usedPostconditions ⟨"g", 1, [⟨0, 20, .postcondition, "r > 0"⟩]⟩ ∧
    assertionDesc ⟨0, 20, .postcondition, "r > 0"⟩
      ∈ (verifyFunction (fun _ => .ok (Term.var "r_0")) (fun _ _ => .ok none)
          [] "g.py" ⟨"g", 1, [⟨0, 20, .postcondition, "r > 0"⟩]⟩).verifiedAssertions ∧
    (⟨0, 20, .termination, "t > 0"⟩ : AInfo)
        ∈ usedOtherAssertions ⟨"h", 1, [⟨0, 20, .termination, "t > 0"⟩]⟩ ∧
    assertionDesc ⟨0, 20, .termination, "t > 0"⟩
      ∈ (verifyFunction (fun _ => .ok (Term.var "t_0")) (fun _ _ => .ok none)
          [] "h.py" ⟨"h", 1, [⟨0, 20, .termination, "t > 0"⟩]⟩).verifiedAssertions := by
  have h1 : ((⟨"g", 1, [⟨0, 20, .postcondition, "r > 0"⟩]⟩ :
      PyFunction).assertions.isEmpty = false) := rfl
  have h2 : (⟨0, 20, .postcondition, "r > 0"⟩ : AInfo)
      ∈ usedPostconditions ⟨"g", 1, [⟨0, 20, .postcondition, "r > 0"⟩]⟩ := by
    simp [usedPostconditions]
  have h3 : ((⟨"h", 1, [⟨0, 20, .termination, "t > 0"⟩]⟩ :
      PyFunction).assertions.isEmpty = false) := rfl
  have h4 : (⟨0, 20, .termination, "t > 0"⟩ : AInfo)
      ∈ usedOtherAssertions ⟨"h", 1, [⟨0, 20, .termination, "t > 0"⟩]⟩ := by
    simp [usedOtherAssertions]
  exact ⟨h1, h2,
    C8_exception_containment.2.2.2.2.2.1 (fun _ => .ok (Term.var "r_0"))
      (fun _ _ => .ok none) [] "g.py" _ _ (Term.var "r_0") h1 h2 rfl rfl,
    h4,
    C8_exception_containment.2.2.2.2.2.2.2.2.2.1 (fun _ => .ok (Term.var "t_0"))
      (fun _ _ => .ok none) [] "h.py" _ _ (Term.var "t_0") h3 h4 rfl rfl⟩

/-! ### Purity analysis: supporting lemmas -/

/-- `takeWhile` ignores everything from the first failing element on. -/
theorem takeWhile_append_stop {α : Type} (p : α → Bool) (x : α) (hp : p x = false)
    (l t : List α) : ((l ++ x :: t).takeWhile p) = l.takeWhile p := by
  induction l with
  | nil => simp [List.takeWhile_cons, hp]
  | cons a l ih => simp only [List.cons_append, List.takeWhile_cons, ih]

/-- Appending `"." ++ a` does not change the text before the first dot. -/
theorem firstDotSegment_append (s a : String) :
    firstDotSegment (s ++ "." ++ a) = firstDotSegment s := by
  have h : (s ++ "." ++ a).data = s.data ++ '.' :: a.data := by
    rw [String.data_append, String.data_append]
    simp [List.append_assoc]
  simp only [firstDotSegment, h,
    takeWhile_append_stop (fun c => decide (c ≠ '.')) '.' (by decide)]

/-- If the first-non-pure scan finds nothing, every element is pure. -/
theorem firstNonPureExpr_none (l : List Expr) (h : firstNonPureExpr l = none) :
    ∀ x ∈ l, (analyzeExpr x).level = .pure := by
  induction l with
  | nil => intro x hx; simp at hx
  | cons e rest ih =>
      intro x hx
      by_cases hl : (analyzeExpr e).level = .pure
      · rcases List.mem_cons.mp hx with rfl | hx
        · exact hl
        · refine ih ?_ x hx
          simpa [firstNonPureExpr, hl] using h
      · simp [firstNonPureExpr, hl] at h

/-- The first-non-pure scan returns a non-pure result of some element. -/
theorem firstNonPureExpr_some (l : List Expr) (r : PurityResult)
    (h : firstNonPureExpr l = some r) :
    r.level ≠ .pure ∧ ∃ x ∈ l, analyzeExpr x = r := by
  induction l with
  | nil => simp [firstNonPureExpr] at h
  | cons e rest ih =>
      by_cases hl : (analyzeExpr e).level = .pure
      · have h2 : firstNonPureExpr rest = some r := by
          simpa [firstNonPureExpr, hl] using h
        obtain ⟨h3, x, hx, h4⟩ := ih h2
        exact ⟨h3, x, List.mem_cons_of_mem _ hx, h4⟩
      · have h2 : analyzeExpr e = r := by
          simpa [firstNonPureExpr, hl] using h
        exact ⟨h2 ▸ hl, e, List.mem_cons_self _ _, h2⟩

/-- Cleanliness of a list means cleanliness of its members. -/
theorem cleanEList_mem (l : List Expr) (h : cleanEList l = true) :
    ∀ x ∈ l, cleanE x = true := by
  induction l with
  | nil => intro x hx; simp at hx
  | cons e rest ih =>
      intro x hx
      simp only [cleanEList, Bool.and_eq_true] at h
      rcases List.mem_cons.mp hx with rfl | hx
      · exact h.1
      · exact ih h.2 x hx

/-- Cleanliness of a statement list means cleanliness of its members. -/
theorem cleanSList_mem (l : List Stmt) (h : cleanSList l = true) :
    ∀ x ∈ l, cleanS x = true := by
  induction l with
  | nil => intro x hx; simp at hx
  | cons e rest ih =>
      intro x hx
      simp only [cleanSList, Bool.and_eq_true] at h
      rcases List.mem_cons.mp hx with rfl | hx
      · exact h.1
      · exact ih h.2 x hx

/-- Membership in the sub-expressions of a list of expressions. -/
theorem mem_subEList (c : Expr) (l : List Expr) :
    c ∈ subEList l ↔ ∃ d ∈ l, c = d ∨ c ∈ subE d := by
  induction l with
  | nil => simp [subEList]
  | cons e rest ih =>
      rw [subEList]
      constructor
      · intro h
        rcases List.mem_append.mp h with h | h
        · rcases List.mem_cons.mp h with rfl | h
          · exact ⟨c, List.mem_cons_self _ _, Or.inl rfl⟩
          · exact ⟨e, List.mem_cons_self _ _, Or.inr h⟩
        · obtain ⟨d, hd, hcd⟩ := ih.mp h
          exact ⟨d, List.mem_cons_of_mem _ hd, hcd⟩
      · rintro ⟨d, hd, hcd⟩
        rcases List.mem_cons.mp hd with rfl | hd
        · rcases hcd with rfl | hcd
          · exact List.mem_append_left _ (List.mem_cons_self _ _)
          · exact List.mem_append_left _ (List.mem_cons_of_mem _ hcd)
        · exact List.mem_append_right _ (ih.mpr ⟨d, hd, hcd⟩)

/-- Membership in the expressions nested in a statement list. -/
theorem mem_stmtListSubExprs (c : Expr) (l : List Stmt) :
    c ∈ stmtListSubExprs l ↔ ∃ s ∈ l, c ∈ stmtSubExprs s := by
  induction l with
  | nil => simp [stmtListSubExprs]
  | cons e rest ih =>
      rw [stmtListSubExprs]
      constructor
      · intro h
        rcases List.mem_append.mp h with h | h
        · exact ⟨e, List.mem_cons_self _ _, h⟩
        · obtain ⟨d, hd, hcd⟩ := ih.mp h
          exact ⟨d, List.mem_cons_of_mem _ hd, hcd⟩
      · rintro ⟨d, hd, hcd⟩
        rcases List.mem_cons.mp hd with rfl | hd
        · exact List.mem_append_left _ hcd
        · exact List.mem_append_right _ (ih.mpr ⟨d, hd, hcd⟩)

/-- Membership in the statements nested in a statement list. -/
theorem mem_stmtListSubStmts (c : Stmt) (l : List Stmt) :
    c ∈ stmtListSubStmts l ↔ ∃ s ∈ l, c = s ∨ c ∈ stmtSubStmts s := by
  induction l with
  | nil => simp [stmtListSubStmts]
  | cons e rest ih =>
      rw [stmtListSubStmts]
      constructor
      · intro h
        rcases List.mem_append.mp h with h | h
        · rcases List.mem_cons.mp h with rfl | h
          · exact ⟨c, List.mem_cons_self _ _, Or.inl rfl⟩
          · exact ⟨e, List.mem_cons_self _ _, Or.inr h⟩
        · obtain ⟨d, hd, hcd⟩ := ih.mp h
          exact ⟨d, List.mem_cons_of_mem _ hd, hcd⟩
      · rintro ⟨d, hd, hcd⟩
        rcases List.mem_cons.mp hd with rfl | hd
        · rcases hcd with rfl | hcd
          · exact List.mem_append_left _ (List.mem_cons_self _ _)
          · exact List.mem_append_left _ (List.mem_cons_of_mem _ hcd)
        · exact List.mem_append_right _ (ih.mpr ⟨d, hd, hcd⟩)

/-- No pure built-in name contains a dot. -/
theorem pure_builtins_no_dot : ∀ s ∈ PURE_BUILTINS, ('.' ∈ s.data) → False := by
  decide

/-- A callee whose extracted name is a pure built-in is itself a plain
`Name` node, hence analyzed pure. -/
theorem getFunctionName_builtin_pure (f : Expr)
    (h : getFunctionName f ∈ PURE_BUILTINS) : (analyzeExpr f).level = .pure := by
  cases f
  case name id ctx => simp [analyzeExpr]
  case «attribute» v a =>
      exfalso
      apply pure_builtins_no_dot _ h
      simp only [getFunctionName, String.data_append]
      exact List.mem_append_left _ (List.mem_append_right _ (by decide))
  all_goals exact absurd h (by simp only [getFunctionName]; decide)

/-- A clean callee whose extracted name starts with a pure-module segment
is a chain of attribute accesses rooted at a `Name`, hence analyzed pure. -/
theorem getFunctionName_module_pure :
    ∀ (n : Nat) (f : Expr), sizeOf f ≤ n → cleanE f = true →
      firstDotSegment (getFunctionName f) ∈ PURE_MODULES →
      (analyzeExpr f).level = .pure := by
  intro n
  induction n using Nat.strong_induction_on with
  | _ n ih =>
    intro f hsz hclean hmod
    cases f
    case name id ctx => simp [analyzeExpr]
    case «attribute» v a =>
      have hv : cleanE v = true := by simpa [cleanE] using hclean
      have hszv : sizeOf v < sizeOf (Expr.attribute v a) := by simp; all_goals omega
      have hmod2 : firstDotSegment (getFunctionName v) ∈ PURE_MODULES := by
        simpa [getFunctionName, firstDotSegment_append] using hmod
      have hpure := ih (sizeOf v) (lt_of_lt_of_le hszv hsz) v le_rfl hv hmod2
      simp [analyzeExpr, hpure]
    all_goals exact absurd hmod (by simp only [getFunctionName]; decide)

/-- On the clean fragment the analyzer never returns the Unknown level:
every fall-through branch producing Unknown is outside the fragment. -/
theorem analyzeExpr_notUnknown :
    ∀ (n : Nat) (e : Expr), sizeOf e ≤ n → cleanE e = true →
      (analyzeExpr e).level ≠ .unknown := by
  intro n
  induction n using Nat.strong_induction_on with
  | _ n ih =>
    intro e hsz hclean
    cases e
    case constant v => simp [analyzeExpr]
    case name id ctx => simp [analyzeExpr]
    case «attribute» v a =>
      have hv : cleanE v = true := by simpa [cleanE] using hclean
      have hszv : sizeOf v < sizeOf (Expr.attribute v a) := by simp; all_goals omega
      have ihv := ih (sizeOf v) (lt_of_lt_of_le hszv hsz) v le_rfl hv
      by_cases hp : (analyzeExpr v).level = .pure
      · simp [analyzeExpr, hp]
      · simpa [analyzeExpr, hp] using ihv
    case binOp l op r =>
      have hc : cleanE l = true ∧ cleanE r = true := by
        simpa [cleanE, Bool.and_eq_true] using hclean
      have hszl : sizeOf l < sizeOf (Expr.binOp l op r) := by simp; all_goals omega
      have hszr : sizeOf r < sizeOf (Expr.binOp l op r) := by simp; all_goals omega
      have ihl := ih (sizeOf l) (lt_of_lt_of_le hszl hsz) l le_rfl hc.1
      have ihr := ih (sizeOf r) (lt_of_lt_of_le hszr hsz) r le_rfl hc.2
      by_cases h1 : (analyzeExpr l).level = .pure ∧ (analyzeExpr r).level = .pure
      · simp [analyzeExpr, h1]
      · by_cases h2 : (analyzeExpr l).level = .impure
        · simpa [analyzeExpr, h1, h2] using ihl
        · simpa [analyzeExpr, h1, h2] using ihr
    case compare l ops cs =>
      have hc : cleanE l = true ∧ cleanEList cs = true := by
        simpa [cleanE, Bool.and_eq_true] using hclean
      have hszl : sizeOf l < sizeOf (Expr.compare l ops cs) := by simp; all_goals omega
      have ihl := ih (sizeOf l) (lt_of_lt_of_le hszl hsz) l le_rfl hc.1
      by_cases h1 : (analyzeExpr l).level = .pure
      · cases hf : firstNonPureExpr cs with
        | none => simp [analyzeExpr, h1, hf]
        | some r =>
            obtain ⟨hrp, x, hx, hxr⟩ := firstNonPureExpr_some cs r hf
            have hszx : sizeOf x < sizeOf (Expr.compare l ops cs) := by
              have := List.sizeOf_lt_of_mem hx; simp; all_goals omega
            have ihx := ih (sizeOf x) (lt_of_lt_of_le hszx hsz) x le_rfl
              (cleanEList_mem cs hc.2 x hx)
            have heq : analyzeExpr (Expr.compare l ops cs) = r := by
              simp [analyzeExpr, h1, hf]
            rw [heq, ← hxr]
            exact ihx
      · simpa [analyzeExpr, h1] using ihl
    case boolOp op vs =>
      have hcl : cleanEList vs = true := by simpa [cleanE] using hclean
      cases hf : firstNonPureExpr vs with
      | none => simp [analyzeExpr, hf]
      | some r =>
          obtain ⟨hrp, x, hx, hxr⟩ := firstNonPureExpr_some vs r hf
          have hszx : sizeOf x < sizeOf (Expr.boolOp op vs) := by
            have := List.sizeOf_lt_of_mem hx; simp; all_goals omega
          have ihx := ih (sizeOf x) (lt_of_lt_of_le hszx hsz) x le_rfl
            (cleanEList_mem vs hcl x hx)
          have heq : analyzeExpr (Expr.boolOp op vs) = r := by
            simp [analyzeExpr, hf]
          rw [heq, ← hxr]
          exact ihx
    case unaryOp op o =>
      have ho : cleanE o = true := by simpa [cleanE] using hclean
      have hszo : sizeOf o < sizeOf (Expr.unaryOp op o) := by simp; all_goals omega
      have iho := ih (sizeOf o) (lt_of_lt_of_le hszo hsz) o le_rfl ho
      simpa [analyzeExpr] using iho
    case call f args kws =>
      have hc : cleanE f = true ∧ cleanEList args = true ∧ cleanEList kws = true := by
        simpa [cleanE, Bool.and_eq_true, and_assoc] using hclean
      cases ha : firstNonPureExpr args with
      | some r =>
          obtain ⟨hrp, x, hx, hxr⟩ := firstNonPureExpr_some args r ha
          have hszx : sizeOf x < sizeOf (Expr.call f args kws) := by
            have := List.sizeOf_lt_of_mem hx; simp; all_goals omega
          have ihx := ih (sizeOf x) (lt_of_lt_of_le hszx hsz) x le_rfl
            (cleanEList_mem args hc.2.1 x hx)
          have heq : analyzeExpr (Expr.call f args kws) = r := by
            simp [analyzeExpr, analyzeFunctionCall, ha]
          rw [heq, ← hxr]
          exact ihx
      | none =>
        cases hk : firstNonPureExpr kws with
        | some r =>
            obtain ⟨hrp, x, hx, hxr⟩ := firstNonPureExpr_some kws r hk
            have hszx : sizeOf x < sizeOf (Expr.call f args kws) := by
              have := List.sizeOf_lt_of_mem hx; simp; all_goals omega
            have ihx := ih (sizeOf x) (lt_of_lt_of_le hszx hsz) x le_rfl
              (cleanEList_mem kws hc.2.2 x hx)
            have heq : analyzeExpr (Expr.call f args kws) = r := by
              simp [analyzeExpr, analyzeFunctionCall, ha, hk]
            rw [heq, ← hxr]
            exact ihx
        | none =>
            simp only [analyzeExpr, analyzeFunctionCall, ha, hk]
            split_ifs <;> simp
    case ifExp t b o =>
      have hc : cleanE t = true ∧ cleanE b = true ∧ cleanE o = true := by
        simpa [cleanE, Bool.and_eq_true, and_assoc] using hclean
      have hszt : sizeOf t < sizeOf (Expr.ifExp t b o) := by simp; all_goals omega
      have hszb : sizeOf b < sizeOf (Expr.ifExp t b o) := by simp; all_goals omega
      have hszo : sizeOf o < sizeOf (Expr.ifExp t b o) := by simp; all_goals omega
      have iht := ih (sizeOf t) (lt_of_lt_of_le hszt hsz) t le_rfl hc.1
      have ihb := ih (sizeOf b) (lt_of_lt_of_le hszb hsz) b le_rfl hc.2.1
      have iho := ih (sizeOf o) (lt_of_lt_of_le hszo hsz) o le_rfl hc.2.2
      by_cases h1 : (analyzeExpr t).level = .pure
      · by_cases h2 : (analyzeExpr b).level = .pure
        · by_cases h3 : (analyzeExpr o).level = .pure
          · simp [analyzeExpr, h1, h2, h3]
          · simpa [analyzeExpr, h1, h2, h3] using iho
        · simpa [analyzeExpr, h1, h2] using ihb
      · simpa [analyzeExpr, h1] using iht
    case subscript v i =>
      have hc : cleanE v = true ∧ cleanE i = true := by
        simpa [cleanE, Bool.and_eq_true] using hclean
      have hszv : sizeOf v < sizeOf (Expr.subscript v i) := by simp; all_goals omega
      have hszi : sizeOf i < sizeOf (Expr.subscript v i) := by simp; all_goals omega
      have ihv := ih (sizeOf v) (lt_of_lt_of_le hszv hsz) v le_rfl hc.1
      have ihi := ih (sizeOf i) (lt_of_lt_of_le hszi hsz) i le_rfl hc.2
      by_cases h1 : (analyzeExpr v).level = .pure ∧ (analyzeExpr i).level = .pure
      · simp [analyzeExpr, h1]
      · by_cases h2 : (analyzeExpr v).level = .pure
        · by_cases h3 : (analyzeExpr i).level = .pure
          · exact absurd ⟨h2, h3⟩ h1
          · simpa [analyzeExpr, h1, h2, h3] using ihi
        · simpa [analyzeExpr, h1, h2] using ihv
    case listLit es =>
      have hcl : cleanEList es = true := by simpa [cleanE] using hclean
      cases hf : firstNonPureExpr es with
      | none => simp [analyzeExpr, containerResult, hf]
      | some r =>
          obtain ⟨hrp, x, hx, hxr⟩ := firstNonPureExpr_some es r hf
          have hszx : sizeOf x < sizeOf (Expr.listLit es) := by
            have := List.sizeOf_lt_of_mem hx; simp; all_goals omega
          have ihx := ih (sizeOf x) (lt_of_lt_of_le hszx hsz) x le_rfl
            (cleanEList_mem es hcl x hx)
          have heq : analyzeExpr (Expr.listLit es) = r := by
            simp [analyzeExpr, containerResult, hf]
          rw [heq, ← hxr]
          exact ihx
    case tupleLit es =>
      have hcl : cleanEList es = true := by simpa [cleanE] using hclean
      cases hf : firstNonPureExpr es with
      | none => simp [analyzeExpr, containerResult, hf]
      | some r =>
          obtain ⟨hrp, x, hx, hxr⟩ := firstNonPureExpr_some es r hf
          have hszx : sizeOf x < sizeOf (Expr.tupleLit es) := by
            have := List.sizeOf_lt_of_mem hx; simp; all_goals omega
          have ihx := ih (sizeOf x) (lt_of_lt_of_le hszx hsz) x le_rfl
            (cleanEList_mem es hcl x hx)
          have heq : analyzeExpr (Expr.tupleLit es) = r := by
            simp [analyzeExpr, containerResult, hf]
          rw [heq, ← hxr]
          exact ihx
    case setLit es =>
      have hcl : cleanEList es = true := by simpa [cleanE] using hclean
      cases hf : firstNonPureExpr es with
      | none => simp [analyzeExpr, containerResult, hf]
      | some r =>
          obtain ⟨hrp, x, hx, hxr⟩ := firstNonPureExpr_some es r hf
          have hszx : sizeOf x < sizeOf (Expr.setLit es) := by
            have := List.sizeOf_lt_of_mem hx; simp; all_goals omega
          have ihx := ih (sizeOf x) (lt_of_lt_of_le hszx hsz) x le_rfl
            (cleanEList_mem es hcl x hx)
          have heq : analyzeExpr (Expr.setLit es) = r := by
            simp [analyzeExpr, containerResult, hf]
          rw [heq, ← hxr]
          exact ihx
    case lambda ps ds b => simp [cleanE] at hclean
    case unknownExpr k => simp [cleanE] at hclean

/-- Bool list containment implies membership. -/
theorem contains_mem_str {l : List String} {a : String}
    (h : l.contains a = true) : a ∈ l := by simpa using h

/-- On the clean fragment, a Pure verdict for an expression forces a Pure
verdict on every sub-expression. -/
theorem analyzeExpr_pure_sub :
    ∀ (n : Nat) (e : Expr), sizeOf e ≤ n → cleanE e = true →
      (analyzeExpr e).level = .pure →
      ∀ c ∈ subE e, (analyzeExpr c).level = .pure := by
  intro n
  induction n using Nat.strong_induction_on with
  | _ n ih =>
    intro e hsz hclean hpure
    have child : ∀ d : Expr, sizeOf d < sizeOf e → cleanE d = true →
        (analyzeExpr d).level = .pure →
        ∀ c : Expr, (c = d ∨ c ∈ subE d) → (analyzeExpr c).level = .pure := by
      rintro d hd hdc hdp c (rfl | hc)
      · exact hdp
      · exact ih (sizeOf d) (lt_of_lt_of_le hd hsz) d le_rfl hdc hdp c hc
    cases e
    case constant v => intro c hc; simp [subE] at hc
    case name id ctx => intro c hc; simp [subE] at hc
    case «attribute» v a =>
      have hv : cleanE v = true := by simpa [cleanE] using hclean
      have hszv : sizeOf v < sizeOf (Expr.attribute v a) := by simp; all_goals omega
      have hvp : (analyzeExpr v).level = .pure := by
        by_cases hp : (analyzeExpr v).level = .pure
        · exact hp
        · exfalso
          have heq : analyzeExpr (Expr.attribute v a) = analyzeExpr v := by
            simp [analyzeExpr, hp]
          rw [heq] at hpure
          exact hp hpure
      intro c hc
      simp only [subE, List.mem_cons] at hc
      exact child v hszv hv hvp c hc
    case binOp l op r =>
      have hc2 : cleanE l = true ∧ cleanE r = true := by
        simpa [cleanE, Bool.and_eq_true] using hclean
      have hszl : sizeOf l < sizeOf (Expr.binOp l op r) := by simp; all_goals omega
      have hszr : sizeOf r < sizeOf (Expr.binOp l op r) := by simp; all_goals omega
      by_cases h1 : (analyzeExpr l).level = .pure ∧ (analyzeExpr r).level = .pure
      · intro c hc
        simp only [subE, List.mem_append, List.mem_cons] at hc
        rcases hc with hc | hc
        · exact child l hszl hc2.1 h1.1 c hc
        · exact child r hszr hc2.2 h1.2 c hc
      · exfalso
        by_cases h2 : (analyzeExpr l).level = .impure
        · simp [analyzeExpr, h2] at hpure
        · have hrr : (analyzeExpr r).level = .pure := by
            simpa [analyzeExpr, h1, h2] using hpure
          have hlr : (analyzeExpr l).level = .unknown := by
            cases hll : (analyzeExpr l).level
            · exact absurd ⟨hll, hrr⟩ h1
            · exact absurd hll h2
            · rfl
          exact absurd hlr (analyzeExpr_notUnknown (sizeOf l) l le_rfl hc2.1)
    case compare l ops cs =>
      have hc2 : cleanE l = true ∧ cleanEList cs = true := by
        simpa [cleanE, Bool.and_eq_true] using hclean
      have hszl : sizeOf l < sizeOf (Expr.compare l ops cs) := by
        simp; all_goals omega
      have h1 : (analyzeExpr l).level = .pure := by
        by_cases h1 : (analyzeExpr l).level = .pure
        · exact h1
        · exfalso
          have heq : analyzeExpr (Expr.compare l ops cs) = analyzeExpr l := by
            simp [analyzeExpr, h1]
          rw [heq] at hpure
          exact h1 hpure
      have hf : firstNonPureExpr cs = none := by
        cases hf : firstNonPureExpr cs with
        | none => rfl
        | some r =>
            exfalso
            have heq : analyzeExpr (Expr.compare l ops cs) = r := by
              simp [analyzeExpr, h1, hf]
            rw [heq] at hpure
            exact (firstNonPureExpr_some cs r hf).1 hpure
      have hall := firstNonPureExpr_none cs hf
      intro c hc
      simp only [subE, List.mem_append, List.mem_cons, mem_subEList] at hc
      rcases hc with hc | ⟨d, hd, hcd⟩
      · exact child l hszl hc2.1 h1 c hc
      · refine child d ?_ (cleanEList_mem cs hc2.2 d hd) (hall d hd) c hcd
        have := List.sizeOf_lt_of_mem hd; simp; all_goals omega
    case boolOp op vs =>
      have hcl : cleanEList vs = true := by simpa [cleanE] using hclean
      have hf : firstNonPureExpr vs = none := by
        cases hf : firstNonPureExpr vs with
        | none => rfl
        | some r =>
            exfalso
            have heq : analyzeExpr (Expr.boolOp op vs) = r := by
              simp [analyzeExpr, hf]
            rw [heq] at hpure
            exact (firstNonPureExpr_some vs r hf).1 hpure
      have hall := firstNonPureExpr_none vs hf
      intro c hc
      simp only [subE, mem_subEList] at hc
      obtain ⟨d, hd, hcd⟩ := hc
      refine child d ?_ (cleanEList_mem vs hcl d hd) (hall d hd) c hcd
      have := List.sizeOf_lt_of_mem hd; simp; all_goals omega
    case unaryOp op o =>
      have ho : cleanE o = true := by simpa [cleanE] using hclean
      have hszo : sizeOf o < sizeOf (Expr.unaryOp op o) := by simp; all_goals omega
      have hop : (analyzeExpr o).level = .pure := by
        simpa [analyzeExpr] using hpure
      intro c hc
      simp only [subE, List.mem_cons] at hc
      exact child o hszo ho hop c hc
    case call f args kws =>
      have hc2 : cleanE f = true ∧ cleanEList args = true ∧ cleanEList kws = true := by
        simpa [cleanE, Bool.and_eq_true, and_assoc] using hclean
      have hszf : sizeOf f < sizeOf (Expr.call f args kws) := by
        simp; all_goals omega
      have ha : firstNonPureExpr args = none := by
        cases ha : firstNonPureExpr args with
        | none => rfl
        | some r =>
            exfalso
            have heq : analyzeExpr (Expr.call f args kws) = r := by
              simp [analyzeExpr, analyzeFunctionCall, ha]
            rw [heq] at hpure
            exact (firstNonPureExpr_some args r ha).1 hpure
      have hk : firstNonPureExpr kws = none := by
        cases hk : firstNonPureExpr kws with
        | none => rfl
        | some r =>
            exfalso
            have heq : analyzeExpr (Expr.call f args kws) = r := by
              simp [analyzeExpr, analyzeFunctionCall, ha, hk]
            rw [heq] at hpure
            exact (firstNonPureExpr_some kws r hk).1 hpure
      have hfp : (analyzeExpr f).level = .pure := by
        by_cases hib : getFunctionName f ∈ IMPURE_BUILTINS
        · exfalso
          simp [analyzeExpr, analyzeFunctionCall, ha, hk, hib] at hpure
        · by_cases hpb : getFunctionName f ∈ PURE_BUILTINS
          · exact getFunctionName_builtin_pure f hpb
          · by_cases hm : '.' ∈ (getFunctionName f).data ∧
                firstDotSegment (getFunctionName f) ∈ PURE_MODULES
            · exact getFunctionName_module_pure (sizeOf f) f le_rfl hc2.1 hm.2
            · exfalso
              simp [analyzeExpr, analyzeFunctionCall, ha, hk, hib, hpb,
                pureFunctionsInit, impureFunctionsInit, hm] at hpure
      intro c hc
      simp only [subE, List.mem_append, List.mem_cons, mem_subEList] at hc
      rcases hc with (hc | ⟨d, hd, hcd⟩) | ⟨d, hd, hcd⟩
      · exact child f hszf hc2.1 hfp c hc
      · refine child d ?_ (cleanEList_mem args hc2.2.1 d hd)
          (firstNonPureExpr_none args ha d hd) c hcd
        have := List.sizeOf_lt_of_mem hd; simp; all_goals omega
      · refine child d ?_ (cleanEList_mem kws hc2.2.2 d hd)
          (firstNonPureExpr_none kws hk d hd) c hcd
        have := List.sizeOf_lt_of_mem hd; simp; all_goals omega
    case ifExp t b o =>
      have hc2 : cleanE t = true ∧ cleanE b = true ∧ cleanE o = true := by
        simpa [cleanE, Bool.and_eq_true, and_assoc] using hclean
      have hszt : sizeOf t < sizeOf (Expr.ifExp t b o) := by simp; all_goals omega
      have hszb : sizeOf b < sizeOf (Expr.ifExp t b o) := by simp; all_goals omega
      have hszo : sizeOf o < sizeOf (Expr.ifExp t b o) := by simp; all_goals omega
      have h1 : (analyzeExpr t).level = .pure := by
        by_cases h1 : (analyzeExpr t).level = .pure
        · exact h1
        · exfalso
          have heq : analyzeExpr (Expr.ifExp t b o) = analyzeExpr t := by
            simp [analyzeExpr, h1]
          rw [heq] at hpure
          exact h1 hpure
      have h2 : (analyzeExpr b).level = .pure := by
        by_cases h2 : (analyzeExpr b).level = .pure
        · exact h2
        · exfalso
          have heq : analyzeExpr (Expr.ifExp t b o) = analyzeExpr b := by
            simp [analyzeExpr, h1, h2]
          rw [heq] at hpure
          exact h2 hpure
      have h3 : (analyzeExpr o).level = .pure := by
        by_cases h3 : (analyzeExpr o).level = .pure
        · exact h3
        · exfalso
          have heq : analyzeExpr (Expr.ifExp t b o) = analyzeExpr o := by
            simp [analyzeExpr, h1, h2, h3]
          rw [heq] at hpure
          exact h3 hpure
      intro c hc
      simp only [subE, List.mem_append, List.mem_cons] at hc
      rcases hc with (hc | hc) | hc
      · exact child t hszt hc2.1 h1 c hc
      · exact child b hszb hc2.2.1 h2 c hc
      · exact child o hszo hc2.2.2 h3 c hc
    case subscript v i =>
      have hc2 : cleanE v = true ∧ cleanE i = true := by
        simpa [cleanE, Bool.and_eq_true] using hclean
      have hszv : sizeOf v < sizeOf (Expr.subscript v i) := by simp; all_goals omega
      have hszi : sizeOf i < sizeOf (Expr.subscript v i) := by simp; all_goals omega
      by_cases h1 : (analyzeExpr v).level = .pure ∧ (analyzeExpr i).level = .pure
      · intro c hc
        simp only [subE, List.mem_append, List.mem_cons] at hc
        rcases hc with hc | hc
        · exact child v hszv hc2.1 h1.1 c hc
        · exact child i hszi hc2.2 h1.2 c hc
      · exfalso
        by_cases h2 : (analyzeExpr v).level = .pure
        · by_cases h3 : (analyzeExpr i).level = .pure
          · exact h1 ⟨h2, h3⟩
          · simp [analyzeExpr, h2, h3] at hpure
        · simp [analyzeExpr, h1, h2] at hpure
    case listLit es =>
      have hcl : cleanEList es = true := by simpa [cleanE] using hclean
      have hf : firstNonPureExpr es = none := by
        cases hf : firstNonPureExpr es with
        | none => rfl
        | some r =>
            exfalso
            have heq : analyzeExpr (Expr.listLit es) = r := by
              simp [analyzeExpr, containerResult, hf]
            rw [heq] at hpure
            exact (firstNonPureExpr_some es r hf).1 hpure
      have hall := firstNonPureExpr_none es hf
      intro c hc
      simp only [subE, mem_subEList] at hc
      obtain ⟨d, hd, hcd⟩ := hc
      refine child d ?_ (cleanEList_mem es hcl d hd) (hall d hd) c hcd
      have := List.sizeOf_lt_of_mem hd; simp; all_goals omega
    case tupleLit es =>
      have hcl : cleanEList es = true := by simpa [cleanE] using hclean
      have hf : firstNonPureExpr es = none := by
        cases hf : firstNonPureExpr es with
        | none => rfl
        | some r =>
            exfalso
            have heq : analyzeExpr (Expr.tupleLit es) = r := by
              simp [analyzeExpr, containerResult, hf]
            rw [heq] at hpure
            exact (firstNonPureExpr_some es r hf).1 hpure
      have hall := firstNonPureExpr_none es hf
      intro c hc
      simp only [subE, mem_subEList] at hc
      obtain ⟨d, hd, hcd⟩ := hc
      refine child d ?_ (cleanEList_mem es hcl d hd) (hall d hd) c hcd
      have := List.sizeOf_lt_of_mem hd; simp; all_goals omega
    case setLit es =>
      have hcl : cleanEList es = true := by simpa [cleanE] using hclean
      have hf : firstNonPureExpr es = none := by
        cases hf : firstNonPureExpr es with
        | none => rfl
        | some r =>
            exfalso
            have heq : analyzeExpr (Expr.setLit es) = r := by
              simp [analyzeExpr, containerResult, hf]
            rw [heq] at hpure
            exact (firstNonPureExpr_some es r hf).1 hpure
      have hall := firstNonPureExpr_none es hf
      intro c hc
      simp only [subE, mem_subEList] at hc
      obtain ⟨d, hd, hcd⟩ := hc
      refine child d ?_ (cleanEList_mem es hcl d hd) (hall d hd) c hcd
      have := List.sizeOf_lt_of_mem hd; simp; all_goals omega
    case lambda ps ds b => simp [cleanE] at hclean
    case unknownExpr k => simp [cleanE] at hclean

/-- If the if-body loop reports nothing, every body statement is pure. -/
theorem analyzeIfBody_none (l : List Stmt) (h : analyzeIfBody l = none) :
    ∀ s ∈ l, (analyzeStmt s).level = .pure := by
  induction l with
  | nil => intro s hs; simp at hs
  | cons p rest ih =>
      intro s hs
      by_cases hp : (analyzeStmt p).level = .pure
      · rcases List.mem_cons.mp hs with rfl | hs2
        · exact hp
        · refine ih ?_ s hs2
          simpa [analyzeIfBody, hp] using h
      · simp [analyzeIfBody, hp] at h

/-- Whatever the if-body loop reports is an impure verdict. -/
theorem analyzeIfBody_some (l : List Stmt) (r : PurityResult)
    (h : analyzeIfBody l = some r) : r.level = .impure := by
  induction l with
  | nil => simp [analyzeIfBody] at h
  | cons p rest ih =>
      by_cases hp : (analyzeStmt p).level = .pure
      · exact ih (by simpa [analyzeIfBody, hp] using h)
      · have h2 : (⟨.impure,
            "If statement body is impure: " ++ (analyzeStmt p).reason⟩ :
            PurityResult) = r := by
          simpa [analyzeIfBody, hp] using h
        rw [← h2]

/-- A pure head statement is skipped by the orelse loop. -/
theorem analyzeOrelse_cons_pure (p : Stmt) (rest : List Stmt)
    (hp : (analyzeStmt p).level = .pure) :
    analyzeOrelse (p :: rest) = analyzeOrelse rest := by
  cases p
  case ifStmt t b e =>
    have hp2 : (analyzeIfStatement t b e).level = .pure := by
      simpa [analyzeStmt] using hp
    simp [analyzeOrelse, hp2]
  all_goals simp [analyzeOrelse, hp]

/-- A non-pure head statement stops the orelse loop with an impure
verdict. -/
theorem analyzeOrelse_cons_impure (p : Stmt) (rest : List Stmt)
    (hp : (analyzeStmt p).level ≠ .pure) :
    ∃ msg, analyzeOrelse (p :: rest) = some ⟨.impure, msg⟩ := by
  cases p
  case ifStmt t b e =>
    have hp2 : (analyzeIfStatement t b e).level ≠ .pure := by
      simpa [analyzeStmt] using hp
    simp only [analyzeOrelse, if_neg hp2]
    exact ⟨_, rfl⟩
  all_goals (simp only [analyzeOrelse, if_neg hp]; exact ⟨_, rfl⟩)

/-- If the orelse loop reports nothing, every clause is pure. -/
theorem analyzeOrelse_none (l : List Stmt) (h : analyzeOrelse l = none) :
    ∀ s ∈ l, (analyzeStmt s).level = .pure := by
  induction l with
  | nil => intro s hs; simp at hs
  | cons p rest ih =>
      intro s hs
      by_cases hp : (analyzeStmt p).level = .pure
      · rcases List.mem_cons.mp hs with rfl | hs2
        · exact hp
        · exact ih (by rwa [analyzeOrelse_cons_pure p rest hp] at h) s hs2
      · obtain ⟨msg, hmsg⟩ := analyzeOrelse_cons_impure p rest hp
        rw [hmsg] at h
        exact absurd h (by simp)

/-- Whatever the orelse loop reports is an impure verdict. -/
theorem analyzeOrelse_some (l : List Stmt) (r : PurityResult)
    (h : analyzeOrelse l = some r) : r.level = .impure := by
  induction l with
  | nil => simp [analyzeOrelse] at h
  | cons p rest ih =>
      by_cases hp : (analyzeStmt p).level = .pure
      · exact ih (by rwa [analyzeOrelse_cons_pure p rest hp] at h)
      · obtain ⟨msg, hmsg⟩ := analyzeOrelse_cons_impure p rest hp
        rw [hmsg] at h
        injection h with h2
        rw [← h2]

/-- A pure verdict on an if statement means: pure test, pure body, pure
orelse. -/
theorem analyzeIfStatement_pure (t : Expr) (b o : List Stmt)
    (h : (analyzeIfStatement t b o).level = .pure) :
    (analyzeExpr t).level = .pure ∧ analyzeIfBody b = none ∧
      analyzeOrelse o = none := by
  by_cases h1 : (analyzeExpr t).level = .pure
  · cases hb : analyzeIfBody b with
    | some r =>
        exfalso
        have heq : analyzeIfStatement t b o = r := by
          simp [analyzeIfStatement, h1, hb]
        rw [heq] at h
        rw [analyzeIfBody_some b r hb] at h
        simp at h
    | none =>
      cases ho : analyzeOrelse o with
      | some r =>
          exfalso
          have heq : analyzeIfStatement t b o = r := by
            simp [analyzeIfStatement, h1, hb, ho]
          rw [heq] at h
          rw [analyzeOrelse_some o r ho] at h
          simp at h
      | none => exact ⟨h1, rfl, rfl⟩
  · exfalso
    simp [analyzeIfStatement, h1] at h

/-- On the clean fragment, a Pure verdict for a statement forces a Pure
verdict on every nested expression and every nested statement. -/
theorem analyzeStmt_pure_sub :
    ∀ (n : Nat) (s : Stmt), sizeOf s ≤ n → cleanS s = true →
      (analyzeStmt s).level = .pure →
      (∀ c ∈ stmtSubExprs s, (analyzeExpr c).level = .pure) ∧
      (∀ c ∈ stmtSubStmts s, (analyzeStmt c).level = .pure) := by
  intro n
  induction n using Nat.strong_induction_on with
  | _ n ih =>
    intro s hsz hclean hpure
    have eCover : ∀ e : Expr, cleanE e = true → (analyzeExpr e).level = .pure →
        ∀ c : Expr, (c = e ∨ c ∈ subE e) → (analyzeExpr c).level = .pure := by
      rintro e hec hep c (rfl | hc)
      · exact hep
      · exact analyzeExpr_pure_sub (sizeOf e) e le_rfl hec hep c hc
    cases s
    case assign ts v =>
      have hc2 : cleanEList ts = true ∧ cleanE v = true := by
        simpa [cleanS, Bool.and_eq_true] using hclean
      have hv : (analyzeExpr v).level = .pure := by
        by_cases hv : (analyzeExpr v).level = .pure
        · exact hv
        · exfalso
          have heq : analyzeStmt (Stmt.assign ts v) = analyzeExpr v := by
            simp [analyzeStmt, hv]
          rw [heq] at hpure
          exact hv hpure
      have htargets :
          (ts.all fun t => match t with | .name _ _ => true | _ => false) = true := by
        by_cases ht :
            (ts.all fun t => match t with | .name _ _ => true | _ => false) = true
        · exact ht
        · exfalso
          simp [analyzeStmt, hv, ht] at hpure
      refine ⟨?_, ?_⟩
      · intro c hc
        simp only [stmtSubExprs, List.mem_append, List.mem_cons, mem_subEList] at hc
        rcases hc with ⟨d, hd, hcd⟩ | hc
        · have hdname : ∃ id ctx, d = Expr.name id ctx := by
            have hall := List.all_eq_true.mp htargets d hd
            cases d <;> first | exact ⟨_, _, rfl⟩ | simp_all
          obtain ⟨id, ctx, rfl⟩ := hdname
          rcases hcd with rfl | hcd
          · simp [analyzeExpr]
          · simp [subE] at hcd
        · exact eCover v hc2.2 hv c hc
      · intro c hc
        simp [stmtSubStmts] at hc
    case augAssign t op v =>
      exfalso; simp [analyzeStmt] at hpure
    case exprStmt v =>
      have hcv : cleanE v = true := by simpa [cleanS] using hclean
      have hv : (analyzeExpr v).level = .pure := by simpa [analyzeStmt] using hpure
      refine ⟨?_, ?_⟩
      · intro c hc
        simp only [stmtSubExprs, List.mem_cons] at hc
        exact eCover v hcv hv c hc
      · intro c hc
        simp [stmtSubStmts] at hc
    case passStmt =>
      refine ⟨?_, ?_⟩ <;> intro c hc <;> simp [stmtSubExprs, stmtSubStmts] at hc
    case assertStmt t m =>
      cases m with
      | none =>
          have hct : cleanE t = true := by simpa [cleanS] using hclean
          have ht : (analyzeExpr t).level = .pure := by
            simpa [analyzeStmt] using hpure
          refine ⟨?_, ?_⟩
          · intro c hc
            simp only [stmtSubExprs, List.mem_append, List.mem_cons,
              List.not_mem_nil, or_false] at hc
            exact eCover t hct ht c hc
          · intro c hc
            simp [stmtSubStmts] at hc
      | some msg =>
          have hc2 : cleanE t = true ∧ cleanE msg = true := by
            simpa [cleanS, Bool.and_eq_true] using hclean
          have hm : (analyzeExpr msg).level = .pure := by
            by_cases hm : (analyzeExpr msg).level = .pure
            · exact hm
            · exfalso
              simp [analyzeStmt, hm] at hpure
          have ht : (analyzeExpr t).level = .pure := by
            simpa [analyzeStmt, hm] using hpure
          refine ⟨?_, ?_⟩
          · intro c hc
            simp only [stmtSubExprs, List.mem_append, List.mem_cons] at hc
            rcases hc with hc | hc
            · exact eCover t hc2.1 ht c hc
            · exact eCover msg hc2.2 hm c hc
          · intro c hc
            simp [stmtSubStmts] at hc
    case ifStmt t b o =>
      have hc2 : cleanE t = true ∧ cleanSList b = true ∧ cleanSList o = true := by
        simpa [cleanS, Bool.and_eq_true, and_assoc] using hclean
      have hps : (analyzeIfStatement t b o).level = .pure := by
        simpa [analyzeStmt] using hpure
      obtain ⟨ht, hb, ho⟩ := analyzeIfStatement_pure t b o hps
      have hbAll := analyzeIfBody_none b hb
      have hoAll := analyzeOrelse_none o ho
      refine ⟨?_, ?_⟩
      · intro c hc
        simp only [stmtSubExprs, List.mem_append, List.mem_cons,
          mem_stmtListSubExprs] at hc
        rcases hc with (hc | ⟨s2, hs2, hcs⟩) | ⟨s2, hs2, hcs⟩
        · exact eCover t hc2.1 ht c hc
        · have hsz2 : sizeOf s2 < n := by
            have h9 := List.sizeOf_lt_of_mem hs2
            have h8 : sizeOf (Stmt.ifStmt t b o) ≤ n := hsz
            simp at h8
            omega
          exact (ih (sizeOf s2) hsz2 s2 le_rfl (cleanSList_mem b hc2.2.1 s2 hs2)
            (hbAll s2 hs2)).1 c hcs
        · have hsz2 : sizeOf s2 < n := by
            have h9 := List.sizeOf_lt_of_mem hs2
            have h8 : sizeOf (Stmt.ifStmt t b o) ≤ n := hsz
            simp at h8
            omega
          exact (ih (sizeOf s2) hsz2 s2 le_rfl (cleanSList_mem o hc2.2.2 s2 hs2)
            (hoAll s2 hs2)).1 c hcs
      · intro c hc
        simp only [stmtSubStmts, List.mem_append, mem_stmtListSubStmts] at hc
        rcases hc with ⟨s2, hs2, hcs⟩ | ⟨s2, hs2, hcs⟩
        · have hsz2 : sizeOf s2 < n := by
            have h9 := List.sizeOf_lt_of_mem hs2
            have h8 : sizeOf (Stmt.ifStmt t b o) ≤ n := hsz
            simp at h8
            omega
          rcases hcs with rfl | hcs
          · exact hbAll c hs2
          · exact (ih (sizeOf s2) hsz2 s2 le_rfl (cleanSList_mem b hc2.2.1 s2 hs2)
              (hbAll s2 hs2)).2 c hcs
        · have hsz2 : sizeOf s2 < n := by
            have h9 := List.sizeOf_lt_of_mem hs2
            have h8 : sizeOf (Stmt.ifStmt t b o) ≤ n := hsz
            simp at h8
            omega
          rcases hcs with rfl | hcs
          · exact hoAll c hs2
          · exact (ih (sizeOf s2) hsz2 s2 le_rfl (cleanSList_mem o hc2.2.2 s2 hs2)
              (hoAll s2 hs2)).2 c hcs
    case returnStmt v =>
      cases v with
      | none =>
          refine ⟨?_, ?_⟩ <;> intro c hc <;>
            simp [stmtSubExprs, stmtSubStmts] at hc
      | some e =>
          have hce : cleanE e = true := by simpa [cleanS] using hclean
          have hep : (analyzeExpr e).level = .pure := by
            simpa [analyzeStmt] using hpure
          refine ⟨?_, ?_⟩
          · intro c hc
            simp only [stmtSubExprs, List.mem_cons] at hc
            exact eCover e hce hep c hc
          · intro c hc
            simp [stmtSubStmts] at hc
    case forStmt b => exfalso; simp [analyzeStmt] at hpure
    case whileStmt b => exfalso; simp [analyzeStmt] at hpure
    case tryStmt => exfalso; simp [analyzeStmt] at hpure
    case withStmt => exfalso; simp [analyzeStmt] at hpure
    case functionDefStmt f => exfalso; simp [analyzeStmt] at hpure
    case asyncFunctionDefStmt f => exfalso; simp [analyzeStmt] at hpure
    case classDefStmt cn => exfalso; simp [analyzeStmt] at hpure
    case importStmt => exfalso; simp [analyzeStmt] at hpure
    case importFromStmt => exfalso; simp [analyzeStmt] at hpure
    case unknownStmt k => exfalso; simp [analyzeStmt] at hpure

/-- C3 (amended): monotonic purity on the fully analyzed fragment.  For
every expression or statement that contains no lambda (whose default-value
expressions `_analyze_expression` never visits) and no construct outside
the analyzer tables (modelled by `unknownExpr`/`unknownStmt`), a Pure
verdict forces a Pure verdict on every sub-construct: every sub-expression
and every nested statement.  Equivalently, on this fragment a sub-construct
verdict of Impure or Unknown makes the enclosing verdict non-Pure.  The
original claim is refuted on the full language by `C3_counterexample`: the
BinOp branch returns the right operand result when the left result is
Unknown, so an expression with an Unknown sub-expression can be Pure. -/
theorem C3_monotonic_purity :
    (∀ e : Expr, cleanE e = true → (analyzeExpr e).level = .pure →
      ∀ c ∈ subE e, (analyzeExpr c).level = .pure) ∧
    (∀ s : Stmt, cleanS s = true → (analyzeStmt s).level = .pure →
      (∀ c ∈ stmtSubExprs s, (analyzeExpr c).level = .pure) ∧
      (∀ c ∈ stmtSubStmts s, (analyzeStmt c).level = .pure)) :=
  ⟨fun e hc hp => analyzeExpr_pure_sub (sizeOf e) e le_rfl hc hp,
   fun s hc hp => analyzeStmt_pure_sub (sizeOf s) s le_rfl hc hp⟩

/-- C3 counterexample: `_analyze_expression` on a BinOp whose left operand
gets the Unknown verdict (for example an f-string, a node kind outside the
analyzer tables) and whose right operand is pure returns the right
operand's Pure result, so the enclosing expression is Pure while its
sub-expression is Unknown; wrapped in a return statement the same verdict
becomes a Pure statement with an Unknown sub-construct. -/
theorem C3_counterexample :
    (Expr.unknownExpr "JoinedStr") ∈ subE (Expr.binOp
      (.unknownExpr "JoinedStr") .addOp (.constant (.intL 1))) ∧
    (analyzeExpr (Expr.unknownExpr "JoinedStr")).level = .unknown ∧
    (analyzeExpr (Expr.binOp (.unknownExpr "JoinedStr") .addOp
      (.constant (.intL 1)))).level = .pure ∧
    (Expr.unknownExpr "JoinedStr") ∈ stmtSubExprs (Stmt.returnStmt (some
      (Expr.binOp (.unknownExpr "JoinedStr") .addOp (.constant (.intL 1))))) ∧
    (analyzeStmt (Stmt.returnStmt (some (Expr.binOp (.unknownExpr "JoinedStr")
      .addOp (.constant (.intL 1)))))).level = .pure := by
  refine ⟨?_, ?_, ?_, ?_, ?_⟩
  · simp [subE]
  · simp [analyzeExpr]
  · simp [analyzeExpr]
  · simp [stmtSubExprs, subE]
  · simp [analyzeStmt, analyzeExpr]

/-- C3 witness: a clean pure binary operation propagates purity to its
left operand. -/
theorem C3_monotonic_purity_witness :
    cleanE (Expr.binOp (.name "x" .load) .addOp (.constant (.intL 1))) = true ∧
    (analyzeExpr (Expr.binOp (.name "x" .load) .addOp
      (.constant (.intL 1)))).level = .pure ∧
    (analyzeExpr (Expr.name "x" .load)).level = .pure :=
  ⟨by simp [cleanE], by simp [analyzeExpr],
   C3_monotonic_purity.1 (Expr.binOp (.name "x" .load) .addOp
      (.constant (.intL 1))) (by simp [cleanE]) (by simp [analyzeExpr])
      (Expr.name "x" .load) (by simp [subE])⟩

end Axiomander
